import Mathlib

/-!
Verification of the Gollaborate sequence-CRDT core.

This file shallowly embeds the Go sources of the repository
(`crdt/crdt.go`, `crdt/document.go`, `cursor/cursor.go`,
`shared/editor_state.go`) as pure Lean functions and proves, or refutes,
the specification claims about them.

Modelling conventions:
* Go `int` is modelled by `Int`, Go `rune` by `Char`.
* Go slices are Lean lists; a Go function that can `panic` (slice out of
  range, explicit `panic`) is modelled with an `Option`/`Except` result
  where `none`/`error` marks the panic.
* Mutation of a `Document` is modelled by returning the new document.
* `sort.Slice` promises only a sorted permutation for the given `less`
  comparator; it is modelled by an insertion sort with that comparator.
-/

namespace crdt

/-- One digit of a CRDT position: a `(digit, node)` pair (crdt.go `Identifier`). -/
structure Identifier where
  Digit : Int
  Node : Int
deriving DecidableEq, Repr

instance : Inhabited Identifier := ⟨⟨0, 0⟩⟩

/-- A character of the replicated document (crdt.go `Character`). -/
structure Character where
  Pos : List Identifier
  Clock : Int
  Value : Char
deriving DecidableEq, Repr

instance : Inhabited Character := ⟨⟨[], 0, ' '⟩⟩

/-- A line of the document (crdt.go `Line`). -/
structure Line where
  Characters : List Character
deriving DecidableEq, Repr

instance : Inhabited Line := ⟨⟨[]⟩⟩

/-- The replicated document: an ordered list of lines (crdt.go `Document`). -/
structure Document where
  Lines : List Line
deriving DecidableEq, Repr

/-- The radix for position digits (crdt.go `BASE`). -/
def BASE : Int := 256

/-- document.go `comparePositions`: lexicographic comparison of positions,
digit first, then node, ties broken by length. -/
def comparePositions : List Identifier → List Identifier → Int
  | [], [] => 0
  | [], _ :: qs => 0 - ((qs.length : Int) + 1)
  | _ :: ps, [] => (ps.length : Int) + 1
  | a :: ps, b :: qs =>
    if a.Digit ≠ b.Digit then a.Digit - b.Digit
    else if a.Node ≠ b.Node then a.Node - b.Node
    else comparePositions ps qs

/-- crdt.go `FromIdentifierList`: the digits of a position. -/
def FromIdentifierList (identifiers : List Identifier) : List Int :=
  identifiers.map (·.Digit)

/-- Helper for `SubtractGreaterThan`: processes the digit columns from least
to most significant (the input lists are reversed and padded to equal
length).  An entry `none` in the first list marks a column that is out of
range of `n1` in the Go code: there the borrow is *not* subtracted. -/
def sgtGo : List (Option Int) → List Int → Int → List Int
  | [], _, _ => []
  | _ :: _, [], _ => []
  | o :: os, d2 :: ds, carry =>
    let d1 : Int := match o with
      | some v => v - carry
      | none => 0
    if d1 < d2 then (d1 + BASE - d2) :: sgtGo os ds 1
    else (d1 - d2) :: sgtGo os ds 0

/-- crdt.go `SubtractGreaterThan`: base-256 subtraction `n1 - n2` of
left-aligned digit vectors, borrows propagating right to left.  (Columns
beyond the end of `n1` take `d1 = 0` without the pending borrow, exactly
as the Go code does.) -/
def SubtractGreaterThan (n1 n2 : List Int) : List Int :=
  let L := max n1.length n2.length
  let p1 := (n1.map some ++ List.replicate (L - n1.length) none).reverse
  let p2 := (n2 ++ List.replicate (L - n2.length) 0).reverse
  (sgtGo p1 p2 0).reverse

/-- Helper for `Add`: processes digit columns from least to most
significant; a nonzero carry left over at the end is the Go `panic`,
modelled as `none`. -/
def addGo : List Int → List Int → Int → Option (List Int)
  | [], [], carry => if carry ≠ 0 then none else some []
  | [], _ :: _, _ => none
  | _ :: _, [], _ => none
  | d1 :: ds1, d2 :: ds2, carry =>
    let s := carry + d1 + d2
    (addGo ds1 ds2 (s.tdiv BASE)).map (fun rest => (s.tmod BASE) :: rest)

/-- crdt.go `Add`: base-256 addition of left-aligned digit vectors;
overflow beyond the most significant digit panics (`none`). -/
def Add (n1 n2 : List Int) : Option (List Int) :=
  let L := max n1.length n2.length
  let p1 := (n1 ++ List.replicate (L - n1.length) 0).reverse
  let p2 := (n2 ++ List.replicate (L - n2.length) 0).reverse
  (addGo p1 p2 0).map List.reverse

/-- crdt.go `Increment`: add to `n1` an increment derived from `delta`
(one unit two places after `delta`'s first non-zero digit); doubled when
the last digit of the sum is zero.  Panics (`none`) when `delta` is all
zero or when `Add` overflows. -/
def Increment (n1 delta : List Int) : Option (List Int) :=
  match delta.findIdx? (fun x => decide (x ≠ 0)) with
  | none => none
  | some firstNonZeroDigit =>
    let inc := delta.take firstNonZeroDigit ++ [0, 1]
    match Add n1 inc with
    | none => none
    | some v1 =>
      if v1.getLast? = some 0 then Add v1 inc else some v1

/-- crdt.go `ToIdentifierList`: wrap a digit vector into identifiers,
reusing the node of `before`/`after` where the digit matches; the last
digit always carries the creating node. -/
def ToIdentifierList (n : List Int) (before after : List Identifier)
    (creationNode : Int) : List Identifier :=
  (List.range n.length).map (fun index =>
    let digit := n.getD index 0
    if index = n.length - 1 then ⟨digit, creationNode⟩
    else if index < before.length ∧ digit = (before.getD index default).Digit then
      ⟨digit, (before.getD index default).Node⟩
    else if index < after.length ∧ digit = (after.getD index default).Digit then
      ⟨digit, (after.getD index default).Node⟩
    else ⟨digit, creationNode⟩)

/-- Case 1 of crdt.go `generatePositionBetween` (head digits differ):
increment the digits of `position1` by an amount derived from the
difference to `position2`, then wrap the digits back into identifiers. -/
def gpbCase1 (position1 position2 : List Identifier) (node : Int) :
    Option (List Identifier) :=
  let n1 := FromIdentifierList position1
  let n2 := FromIdentifierList position2
  let delta := SubtractGreaterThan n2 n1
  match Increment n1 delta with
  | none => none
  | some next => some (ToIdentifierList next position1 position2 node)

/-- crdt.go `generatePositionBetween`: allocate a position between
`position1` and `position2`.  The Go code panics on an empty `position1`
in the recursive cases (slice `position1[1:]` out of range), on
`head1.Node > head2.Node`, and inside `Increment`/`Add`; all of these are
modelled as `none`. -/
def generatePositionBetween : List Identifier → List Identifier → Int →
    Option (List Identifier)
  | [], position2, node =>
    let head1 : Identifier := ⟨0, node⟩
    let head2 := match position2 with
      | [] => (⟨BASE, node⟩ : Identifier)
      | h :: _ => h
    if head1.Digit ≠ head2.Digit then gpbCase1 [] position2 node
    else none
  | h1 :: t1, position2, node =>
    let head2 := match position2 with
      | [] => (⟨BASE, node⟩ : Identifier)
      | h :: _ => h
    if h1.Digit ≠ head2.Digit then gpbCase1 (h1 :: t1) position2 node
    else if h1.Node < head2.Node then
      (generatePositionBetween t1 [] node).map (fun rest => h1 :: rest)
    else if h1.Node = head2.Node then
      match position2 with
      | [] => none
      | _ :: t2 => (generatePositionBetween t1 t2 node).map (fun rest => h1 :: rest)
    else none

/-- The characters of a document in line-then-character order. -/
def flattenChars (d : Document) : List Character :=
  (d.Lines.map Line.Characters).flatten

/-- The characters of a list of lines in line-then-character order. -/
def flattenLines (lines : List Line) : List Character :=
  (lines.map Line.Characters).flatten

/-- The number of characters `FromText` will allocate for a list of text
pieces: the piece lengths plus one newline character between successive
pieces. -/
def textWeight : List (List Char) → Int
  | [] => 0
  | [p] => p.length
  | p :: rest => p.length + 1 + textWeight rest

/-- The comparator passed to `sort.Slice` in document.go `getAllCharacters`. -/
def charLess (a b : Character) : Bool :=
  decide (comparePositions a.Pos b.Pos < 0)

/-- Insert into a list sorted by the strict comparator `less` (helper of
`sortByLess`). -/
def insertByLess {α : Type _} (less : α → α → Bool) (a : α) : List α → List α
  | [] => [a]
  | b :: bs => if less a b then a :: b :: bs else b :: insertByLess less a bs

/-- A comparison sort, modelling Go's `sort.Slice` (which promises only a
sorted permutation for the given `less` comparator). -/
def sortByLess {α : Type _} (less : α → α → Bool) : List α → List α
  | [] => []
  | a :: as => insertByLess less a (sortByLess less as)

/-- document.go `getAllCharacters`: all characters of the document, sorted
by position. -/
def getAllCharacters (d : Document) : List Character :=
  sortByLess charLess (flattenChars d)

/-- Recursive core of document.go `getLineAndCharIndex`: walk the lines
accumulating character counts; when no line contains the index, fall
through to the end of the last line. -/
def gLCIGo : List Line → Nat → Nat × Nat
  | [], _ => (0, 0)
  | [l], i => if i < l.Characters.length then (0, i) else (0, l.Characters.length)
  | l :: l2 :: ls, i =>
    if i < l.Characters.length then (0, i)
    else
      let p := gLCIGo (l2 :: ls) (i - l.Characters.length)
      (p.1 + 1, p.2)

/-- document.go `getLineAndCharIndex`: convert a flat character index to
(line index, index within line). -/
def getLineAndCharIndex (d : Document) (charIndex : Nat) : Nat × Nat :=
  gLCIGo d.Lines charIndex

/-- document.go `findInsertionPoint`: the (line, column) indices of the
first character whose position is greater than `position`; at the end of
the last line when there is none. -/
def findInsertionPoint (d : Document) (position : List Identifier) : Nat × Nat :=
  let allChars := getAllCharacters d
  match allChars.findIdx? (fun ch => decide (comparePositions position ch.Pos < 0)) with
  | some i => getLineAndCharIndex d i
  | none =>
    match d.Lines.getLast? with
    | none => (0, 0)
    | some last => (d.Lines.length - 1, last.Characters.length)

/-- Recursive core of document.go `findCharacter`: line-major scan for the
first character whose position compares equal to `position`. -/
def findCharacterLines : List Line → List Identifier → Option (Nat × Nat)
  | [], _ => none
  | l :: ls, position =>
    match l.Characters.findIdx? (fun ch => decide (comparePositions position ch.Pos = 0)) with
    | some ci => some (0, ci)
    | none => (findCharacterLines ls position).map (fun p => (p.1 + 1, p.2))

/-- document.go `findCharacter` (the `found` flag is the `some` case). -/
def findCharacter (d : Document) (position : List Identifier) : Option (Nat × Nat) :=
  findCharacterLines d.Lines position

/-- document.go `InsertCharacter`: insert a character at `position`.  A
newline splits the target line at the insertion point; the newline
character becomes the last character of the current line and the tail
moves to a freshly inserted successor line. -/
def InsertCharacter (d : Document) (char : Char) (position : List Identifier)
    (clock : Int) : Except String Document :=
  let lines0 := if d.Lines.isEmpty then [(⟨[]⟩ : Line)] else d.Lines
  let d0 : Document := ⟨lines0⟩
  let newChar : Character := ⟨position, clock, char⟩
  if char = '\n' then
    let p := findInsertionPoint d0 position
    let lineIndex := p.1
    let charIndex := p.2
    let currentLine := lines0.getD lineIndex default
    let newLine : Line := ⟨currentLine.Characters.drop charIndex⟩
    let lines1 := lines0.set lineIndex ⟨currentLine.Characters.take charIndex ++ [newChar]⟩
    .ok ⟨lines1.take (lineIndex + 1) ++ [newLine] ++ lines1.drop (lineIndex + 1)⟩
  else
    let p := findInsertionPoint d0 position
    let lineIndex := p.1
    let charIndex := p.2
    let line := lines0.getD lineIndex default
    .ok ⟨lines0.set lineIndex
      ⟨line.Characters.take charIndex ++ [newChar] ++ line.Characters.drop charIndex⟩⟩

/-- document.go `DeleteCharacter`: remove the character whose position
compares equal to `position`; deleting a newline merges the successor
line into the current one.  Absent positions yield the NotFound error. -/
def DeleteCharacter (d : Document) (position : List Identifier) :
    Except String Document :=
  match findCharacter d position with
  | none => .error "character not found at position"
  | some p =>
    let lineIndex := p.1
    let charIndex := p.2
    let line := d.Lines.getD lineIndex default
    let char := line.Characters.getD charIndex default
    if char.Value = '\n' then
      if lineIndex + 1 < d.Lines.length then
        let truncated := line.Characters.take charIndex ++ line.Characters.drop (charIndex + 1)
        let merged := truncated ++ (d.Lines.getD (lineIndex + 1) default).Characters
        .ok ⟨(d.Lines.set lineIndex ⟨merged⟩).take (lineIndex + 1) ++ d.Lines.drop (lineIndex + 2)⟩
      else
        .ok ⟨d.Lines.set lineIndex
          ⟨line.Characters.take charIndex ++ line.Characters.drop (charIndex + 1)⟩⟩
    else
      .ok ⟨d.Lines.set lineIndex
        ⟨line.Characters.take charIndex ++ line.Characters.drop (charIndex + 1)⟩⟩

/-- document.go `ToText`: concatenate the non-newline character values of
each line, emitting a newline between successive lines.  The text is
modelled as a list of characters. -/
def ToText (d : Document) : List Char :=
  List.intercalate ['\n']
    (d.Lines.map (fun l => (l.Characters.filter (fun c => decide (c.Value ≠ '\n'))).map (·.Value)))

/-- Inner loop of document.go `FromText`: the characters of one line,
with single-identifier positions `(clk, nodeID)`, `clk` increasing. -/
def fromTextChars : List Char → Int → Int → List Character
  | [], _, _ => []
  | c :: rest, nodeID, clk => ⟨[⟨clk, nodeID⟩], clk, c⟩ :: fromTextChars rest nodeID (clk + 1)

/-- Outer loop of document.go `FromText`: one `Line` per piece of the
split text, a newline character appended to every piece but the last. -/
def fromTextLines : List (List Char) → Int → Int → List Line
  | [], _, _ => []
  | [piece], nodeID, clk => [⟨fromTextChars piece nodeID clk⟩]
  | piece :: rest, nodeID, clk =>
    ⟨fromTextChars piece nodeID clk ++
      [⟨[⟨clk + piece.length, nodeID⟩], clk + piece.length, '\n'⟩]⟩ ::
      fromTextLines rest nodeID (clk + piece.length + 1)

/-- document.go `FromText`: build a document from plain text, splitting on
newlines, with clocks (and digits) counting up from 1. -/
def FromText (text : List Char) (nodeID : Int) : Document :=
  if text = [] then ⟨[⟨[]⟩]⟩
  else ⟨fromTextLines (List.splitOn '\n' text) nodeID 1⟩

/-- document.go `GeneratePositionAt`: allocate a position for an insertion
at 1-based text coordinates.  The Go code panics (`none`) when
`textLine ≤ 0` (negative line index) or when the computed flat index is
negative, and propagates panics of `generatePositionBetween`. -/
def GeneratePositionAt (d : Document) (textLine textColumn : Int)
    (nodeID : Int) : Option (List Identifier) :=
  if d.Lines.length = 0 then some [⟨1, nodeID⟩]
  else
    let base : Int :=
      (((d.Lines.take (textLine - 1).toNat).map (fun l => l.Characters.length)).sum : Nat)
    if textLine - 1 < (d.Lines.length : Int) ∧ textLine - 1 < 0 then none
    else
      let charIndex : Int :=
        if textLine - 1 < (d.Lines.length : Int) then
          base + min (textColumn - 1)
            ((d.Lines.getD (textLine - 1).toNat default).Characters.length : Int)
        else base
      let allChars := getAllCharacters d
      if allChars.length = 0 then some [⟨1, nodeID⟩]
      else if charIndex = 0 then
        generatePositionBetween [] (allChars.headD default).Pos nodeID
      else if charIndex ≥ (allChars.length : Int) then
        generatePositionBetween (allChars.getLastD default).Pos [] nodeID
      else if charIndex < 0 then none
      else
        generatePositionBetween ((allChars.getD (charIndex - 1).toNat default).Pos)
          ((allChars.getD charIndex.toNat default).Pos) nodeID

/-- document.go `FindPositionAt`: the position of the character at 1-based
(line, column); column `len + 1` yields the last character's position
(the empty position on an empty line); out-of-range coordinates fail. -/
def FindPositionAt (d : Document) (textLine textColumn : Int) :
    Except String (List Identifier) :=
  if textLine < 1 ∨ textLine > (d.Lines.length : Int) then
    .error "line out of range"
  else
    let line := d.Lines.getD (textLine - 1).toNat default
    if textColumn < 1 ∨ textColumn > (line.Characters.length : Int) + 1 then
      .error "column out of range"
    else if textColumn ≤ (line.Characters.length : Int) then
      .ok ((line.Characters.getD (textColumn - 1).toNat default).Pos)
    else if 0 < line.Characters.length then
      .ok ((line.Characters.getLastD default).Pos)
    else
      .ok []

/-- No character of the list is a newline (canonical-form side condition). -/
def NlFree (l : List Character) : Prop := ∀ c ∈ l, c.Value ≠ '\n'

instance (l : List Character) : Decidable (NlFree l) :=
  List.decidableBAll _ l

/-- The last character of the list is a newline. -/
def lastIsNewline (l : List Character) : Prop :=
  l.getLast?.map Character.Value = some '\n'

instance (l : List Character) : Decidable (lastIsNewline l) := by
  unfold lastIsNewline
  infer_instance

/-- A non-final line of a canonical document: a newline at the end and
nowhere else. -/
def InteriorLine (l : Line) : Prop :=
  NlFree l.Characters.dropLast ∧ lastIsNewline l.Characters

instance (l : Line) : Decidable (InteriorLine l) := by
  unfold InteriorLine
  infer_instance

/-- The documented line-structure invariant: at least one line; every
non-final line ends with its only newline; the final line has none. -/
def IsCanonLines : List Line → Prop
  | [] => False
  | [l] => NlFree l.Characters
  | l :: l2 :: ls => InteriorLine l ∧ IsCanonLines (l2 :: ls)

instance instDecIsCanonLines : (ls : List Line) → Decidable (IsCanonLines ls)
  | [] => isFalse (fun h => h)
  | [l] => (inferInstance : Decidable (NlFree l.Characters))
  | l :: l2 :: ls =>
    have : Decidable (IsCanonLines (l2 :: ls)) := instDecIsCanonLines (l2 :: ls)
    inferInstanceAs (Decidable (InteriorLine l ∧ IsCanonLines (l2 :: ls)))

/-- Split a character list into canonical lines: each newline ends its
line. -/
def splitLines : List Character → List (List Character)
  | [] => [[]]
  | c :: rest =>
    match splitLines rest with
    | [] => [[c]]
    | l :: ls => if c.Value = '\n' then [c] :: l :: ls else (c :: l) :: ls

/-- Ordered insertion before the first strictly greater position
(specification-side description of `findInsertionPoint` + insert). -/
def sInsertChar (c : Character) : List Character → List Character
  | [] => [c]
  | x :: xs =>
    if comparePositions c.Pos x.Pos < 0 then c :: x :: xs
    else x :: sInsertChar c xs

/-- A replicated operation fed to a document. -/
inductive Op where
  | insert (position : List Identifier) (char : Char) (clock : Int)
  | delete (position : List Identifier)
deriving DecidableEq, Repr

/-- Apply one operation to a document via the document API (the
replicator swallows errors, leaving the document unchanged). -/
def applyOp (d : Document) : Op → Document
  | .insert p v k =>
    match InsertCharacter d v p k with
    | .ok d' => d'
    | .error _ => d
  | .delete p =>
    match DeleteCharacter d p with
    | .ok d' => d'
    | .error _ => d

/-- Apply a sequence of operations in order. -/
def applyOps (d : Document) (ops : List Op) : Document :=
  ops.foldl applyOp d

/-- Apply one operation at the level of the flat character list. -/
def applyOpL (S : List Character) : Op → List Character
  | .insert p v k => sInsertChar ⟨p, k, v⟩ S
  | .delete p => S.filter (fun c => !(decide (comparePositions p c.Pos = 0)))

/-- Apply a sequence of operations at the flat-character level. -/
def applyOpsL (S : List Character) (ops : List Op) : List Character :=
  ops.foldl applyOpL S

/-- Validity of an operation sequence against a document: every insert
carries a position not yet in the document, every delete targets a
position present when it is applied. -/
def ValidSeq : Document → List Op → Prop
  | _, [] => True
  | d, op :: rest =>
    (match op with
     | .insert p _ _ => ∀ c ∈ flattenChars d, comparePositions p c.Pos ≠ 0
     | .delete p => ∃ c ∈ flattenChars d, comparePositions p c.Pos = 0) ∧
    ValidSeq (applyOp d op) rest

instance instDecValidSeq : (d : Document) → (ops : List Op) → Decidable (ValidSeq d ops)
  | _, [] => isTrue trivial
  | d, .insert p v k :: rest =>
    have : Decidable (ValidSeq (applyOp d (.insert p v k)) rest) :=
      instDecValidSeq (applyOp d (.insert p v k)) rest
    inferInstanceAs (Decidable ((∀ c ∈ flattenChars d, comparePositions p c.Pos ≠ 0) ∧
      ValidSeq (applyOp d (.insert p v k)) rest))
  | d, .delete p :: rest =>
    have : Decidable (ValidSeq (applyOp d (.delete p)) rest) :=
      instDecValidSeq (applyOp d (.delete p)) rest
    inferInstanceAs (Decidable ((∃ c ∈ flattenChars d, comparePositions p c.Pos = 0) ∧
      ValidSeq (applyOp d (.delete p)) rest))

/-- The same validity at the flat-character level. -/
def ValidSeqL : List Character → List Op → Prop
  | _, [] => True
  | S, op :: rest =>
    (match op with
     | .insert p _ _ => ∀ c ∈ S, comparePositions p c.Pos ≠ 0
     | .delete p => ∃ c ∈ S, comparePositions p c.Pos = 0) ∧
    ValidSeqL (applyOpL S op) rest

/-- The positions carried by the insert operations of a sequence. -/
def insertPositionsOf (ops : List Op) : List (List Identifier) :=
  ops.filterMap (fun op => match op with
    | .insert p _ _ => some p
    | .delete _ => none)

/-- How many deletes of exactly this position a sequence contains. -/
def delCount (ops : List Op) (p : List Identifier) : Nat :=
  ops.countP (fun op => match op with
    | .delete q => decide (q = p)
    | .insert _ _ _ => false)

/-- The character carried by the first insert at this position. -/
def insertLookup (ops : List Op) (p : List Identifier) : Option Character :=
  ops.findSome? (fun op => match op with
    | .insert q v k => if q = p then some ⟨q, k, v⟩ else none
    | .delete _ => none)

/-- The final presence and value of a character under an operation
multiset, as determined by the counts alone (used to show order
independence). -/
def PFinal (S : List Character) (ops : List Op) (c : Character) : Prop :=
  match insertLookup ops c.Pos with
  | some c' =>
    c = c' ∧ delCount ops c.Pos = (if c.Pos ∈ S.map Character.Pos then 1 else 0)
  | none => c ∈ S ∧ delCount ops c.Pos = 0

/-- The documented document invariants: canonical line structure and
strictly sorted flat character positions. -/
def DocInv (d : Document) : Prop :=
  IsCanonLines d.Lines ∧
  List.Pairwise (fun a b => comparePositions a.Pos b.Pos < 0) (flattenChars d)

instance (d : Document) : Decidable (DocInv d) := by
  unfold DocInv
  infer_instance

end crdt

namespace cursor

/-- cursor.go `TextPosition`: 1-based (line, column) text coordinates. -/
structure TextPosition where
  Line : Int
  Column : Int
deriving DecidableEq, Repr

/-- cursor.go `identifiersEqual`: structural equality of identifier lists. -/
def identifiersEqual (a b : List crdt.Identifier) : Bool :=
  if a.length ≠ b.length then false
  else (List.zip a b).all (fun p => p.1.Digit == p.2.Digit && p.1.Node == p.2.Node)

/-- Nested search loop of cursor.go `GetTextCoordsFromCRDTPosition`: the
first (line index, char index) whose character's position equals
`position`. -/
def searchCoords : List crdt.Line → List crdt.Identifier → Option (Nat × Nat)
  | [], _ => none
  | l :: ls, position =>
    match l.Characters.findIdx? (fun ch => identifiersEqual ch.Pos position) with
    | some ci => some (0, ci)
    | none => (searchCoords ls position).map (fun p => (p.1 + 1, p.2))

/-- cursor.go `GetTextCoordsFromCRDTPosition` against a document snapshot
(the manager's only state used here is the document; the `nil`-document
error path lies outside the model).  An empty position maps to (1, 1); a
found character to its 1-based coordinates; otherwise the end-of-document
coordinates. -/
def GetTextCoordsFromCRDTPosition (d : crdt.Document)
    (position : List crdt.Identifier) : TextPosition :=
  if position.length = 0 then ⟨1, 1⟩
  else
    match searchCoords d.Lines position with
    | some p => ⟨(p.1 : Int) + 1, (p.2 : Int) + 1⟩
    | none =>
      match d.Lines.getLast? with
      | none => ⟨1, 1⟩
      | some lastLine => ⟨(d.Lines.length : Int), (lastLine.Characters.length : Int) + 1⟩

end cursor

namespace shared

/-- The `Type` discriminator of a wire message (messages package); only
the kinds inspected by `handleMessage` are distinguished. -/
inductive MessageType where
  | operation
  | sync
  | other
deriving DecidableEq, Repr

/-- The `Type` discriminator of an operation (messages package). -/
inductive OperationType where
  | insert
  | delete
deriving DecidableEq, Repr

/-- A replicated operation as carried on the wire (messages package
`Operation`; the Go fields `Type` and `Character` are named `OpType` and
`CharValue` here because of Lean name clashes). -/
structure Operation where
  OpType : OperationType
  Position : List crdt.Identifier
  CharValue : Char
  UserID : Int
  Clock : Int
deriving DecidableEq, Repr

/-- A wire message (messages package `Message`); fields in lower case to
avoid clashing with the type names. -/
structure Message where
  msgType : MessageType
  operation : Option Operation
  document : Option crdt.Document
  userID : Int
deriving DecidableEq, Repr

/-- editor_state.go `EditorState`, restricted to the replicated state (the
connection and listener sets do not influence the document or clock). -/
structure EditorState where
  document : crdt.Document
  nodeID : Int
  currentClock : Int
deriving DecidableEq, Repr

/-- editor_state.go `handleMessage`: apply a remote operation (errors
swallowed) or adopt a sync document when the sender differs from the
local node.  Nothing else — in particular `currentClock` — changes. -/
def handleMessage (e : EditorState) (msg : Message) : EditorState :=
  match msg.msgType with
  | .operation =>
    match msg.operation with
    | some op =>
      if op.UserID ≠ e.nodeID then
        match op.OpType with
        | .insert =>
          { e with document :=
              match crdt.InsertCharacter e.document op.CharValue op.Position op.Clock with
              | .ok d => d
              | .error _ => e.document }
        | .delete =>
          { e with document :=
              match crdt.DeleteCharacter e.document op.Position with
              | .ok d => d
              | .error _ => e.document }
      else e
    | none => e
  | .sync =>
    match msg.document with
    | some doc => if msg.userID ≠ e.nodeID then { e with document := doc } else e
    | none => e
  | .other => e

end shared

instance {ε α : Type _} [DecidableEq ε] [DecidableEq α] : DecidableEq (Except ε α) := fun x y =>
  match x, y with
  | .ok a, .ok b =>
    if h : a = b then .isTrue (by rw [h]) else .isFalse (by simp [h])
  | .error e, .error f =>
    if h : e = f then .isTrue (by rw [h]) else .isFalse (by simp [h])
  | .ok _, .error _ => .isFalse (fun hh => Except.noConfusion hh)
  | .error _, .ok _ => .isFalse (fun hh => Except.noConfusion hh)

namespace crdt

/-- `comparePositions` is zero exactly on equal positions. -/
theorem comparePositions_eq_zero_iff :
    ∀ p q : List Identifier, comparePositions p q = 0 ↔ p = q := by
  intro p
  induction p with
  | nil =>
    intro q
    cases q with
    | nil => simp [comparePositions]
    | cons b qs =>
      simp only [comparePositions]
      constructor
      · intro h; omega
      · intro h; cases h
  | cons a ps ih =>
    intro q
    cases q with
    | nil =>
      simp only [comparePositions]
      constructor
      · intro h; omega
      · intro h; cases h
    | cons b qs =>
      simp only [comparePositions]
      by_cases hd : a.Digit = b.Digit
      · by_cases hn : a.Node = b.Node
        · have hab : a = b := by cases a; cases b; simp_all
          simp [hd, hn, ih qs, hab]
        · simp only [hd, ne_eq, not_true_eq_false, if_false, hn, not_false_eq_true, if_true]
          constructor
          · intro h; omega
          · intro h
            injection h with h1 _
            exact absurd (congrArg Identifier.Node h1) hn
      · simp only [hd, ne_eq, not_false_eq_true, if_true]
        constructor
        · intro h; omega
        · intro h
          injection h with h1 _
          exact absurd (congrArg Identifier.Digit h1) hd

/-- Swapping the arguments of `comparePositions` negates the result. -/
theorem comparePositions_swap :
    ∀ p q : List Identifier, comparePositions q p = -comparePositions p q := by
  intro p
  induction p with
  | nil =>
    intro q
    cases q with
    | nil => simp [comparePositions]
    | cons b qs => simp [comparePositions]
  | cons a ps ih =>
    intro q
    cases q with
    | nil => simp [comparePositions]
    | cons b qs =>
      simp only [comparePositions]
      by_cases hd : a.Digit = b.Digit
      · by_cases hn : a.Node = b.Node
        · rw [if_neg (not_not_intro hd.symm), if_neg (not_not_intro hd),
            if_neg (not_not_intro hn.symm), if_neg (not_not_intro hn)]
          exact ih qs
        · rw [if_neg (not_not_intro hd.symm), if_neg (not_not_intro hd),
            if_pos (Ne.symm hn), if_pos hn]
          omega
      · rw [if_pos (Ne.symm hd), if_pos hd]
        omega

/-- Transitivity of the strict order induced by `comparePositions`. -/
theorem comparePositions_trans_lt :
    ∀ p q r : List Identifier, comparePositions p q < 0 →
      comparePositions q r < 0 → comparePositions p r < 0 := by
  intro p
  induction p with
  | nil =>
    intro q r hpq hqr
    cases q with
    | nil => simp [comparePositions] at hpq
    | cons b qs =>
      cases r with
      | nil => simp only [comparePositions] at hqr; omega
      | cons c rs => simp only [comparePositions]; omega
  | cons a ps ih =>
    intro q r hpq hqr
    cases q with
    | nil => simp only [comparePositions] at hpq; omega
    | cons b qs =>
      cases r with
      | nil => simp only [comparePositions] at hqr; omega
      | cons c rs =>
        simp only [comparePositions] at hpq hqr ⊢
        by_cases hab : a.Digit = b.Digit
        · by_cases hbc : b.Digit = c.Digit
          · rw [if_neg (not_not_intro hab)] at hpq
            rw [if_neg (not_not_intro hbc)] at hqr
            rw [if_neg (not_not_intro (hab.trans hbc))]
            by_cases nab : a.Node = b.Node
            · rw [if_neg (not_not_intro nab)] at hpq
              by_cases nbc : b.Node = c.Node
              · rw [if_neg (not_not_intro nbc)] at hqr
                rw [if_neg (not_not_intro (nab.trans nbc))]
                exact ih qs rs hpq hqr
              · rw [if_pos nbc] at hqr
                have nac : a.Node ≠ c.Node := by rw [nab]; exact nbc
                rw [if_pos nac]
                omega
            · rw [if_pos nab] at hpq
              by_cases nbc : b.Node = c.Node
              · have nac : a.Node ≠ c.Node := by rw [← nbc]; exact nab
                rw [if_pos nac]
                omega
              · rw [if_pos nbc] at hqr
                by_cases nac : a.Node = c.Node
                · omega
                · rw [if_pos nac]
                  omega
          · rw [if_pos hbc] at hqr
            by_cases hac : a.Digit = c.Digit
            · omega
            · rw [if_pos hac]
              omega
        · rw [if_pos hab] at hpq
          by_cases hbc : b.Digit = c.Digit
          · have hac : a.Digit ≠ c.Digit := by rw [← hbc]; exact hab
            rw [if_pos hac]
            omega
          · rw [if_pos hbc] at hqr
            have hac : a.Digit ≠ c.Digit := by omega
            rw [if_pos hac]
            omega

end crdt

/-- Claim C1, failing input.  The inputs satisfy `p_lo < p_hi` under
`compare`, yet `generatePositionBetween` returns a position strictly
*greater* than `p_hi`: the borrow dropped by `SubtractGreaterThan` beyond
the end of the shorter operand overestimates `delta`, so the increment
overshoots. -/
theorem claim_C1 :
    crdt.comparePositions
        [⟨0, 1⟩, ⟨255, 1⟩, ⟨255, 1⟩, ⟨10, 1⟩] [⟨1, 1⟩] < 0 ∧
    crdt.generatePositionBetween
        [⟨0, 1⟩, ⟨255, 1⟩, ⟨255, 1⟩, ⟨10, 1⟩] [⟨1, 1⟩] 2 =
      some [⟨1, 1⟩, ⟨0, 2⟩, ⟨0, 2⟩, ⟨10, 2⟩] ∧
    0 < crdt.comparePositions
        [⟨1, 1⟩, ⟨0, 2⟩, ⟨0, 2⟩, ⟨10, 2⟩] [⟨1, 1⟩] := by
  refine ⟨by decide, by decide, by decide⟩

/-- Claim C5, failing input.  A remote insert operation from node 2 with
clock 100 arrives at a replica whose local clock is 1: `handleMessage`
applies the operation to the document but leaves the clock at 1 instead
of setting it to `max 1 100 = 100`. -/
theorem claim_C5 :
    (shared.handleMessage ⟨crdt.FromText [] 1, 1, 1⟩
        ⟨.operation, some ⟨.insert, [⟨1, 2⟩], 'a', 2, 100⟩, none, 2⟩).currentClock = 1 ∧
    crdt.ToText (shared.handleMessage ⟨crdt.FromText [] 1, 1, 1⟩
        ⟨.operation, some ⟨.insert, [⟨1, 2⟩], 'a', 2, 100⟩, none, 2⟩).document = ['a'] ∧
    (1 : Int) ≠ max 1 100 := by
  refine ⟨by decide, by decide, by decide⟩

/-- Claim C5, general form of what the code actually does: handling any
message never changes the replica's clock. -/
theorem handleMessage_currentClock_unchanged (e : shared.EditorState)
    (msg : shared.Message) :
    (shared.handleMessage e msg).currentClock = e.currentClock := by
  unfold shared.handleMessage
  rcases msg with ⟨mt, op, doc, uid⟩
  cases mt <;> dsimp only
  · cases op with
    | none => rfl
    | some o =>
      dsimp only
      by_cases h : o.UserID ≠ e.nodeID
      · rw [if_pos h]
        cases o.OpType <;> rfl
      · rw [if_neg h]
  · cases doc with
    | none => rfl
    | some dd =>
      dsimp only
      by_cases h : uid ≠ e.nodeID
      · rw [if_pos h]
      · rw [if_neg h]

namespace crdt

/-- Digits (and clocks) of the characters produced by `fromTextChars`
lie in `[clk, clk + piece.length)`. -/
theorem fromTextChars_digit_bounds :
    ∀ (piece : List Char) (node clk : Int) (c : Character),
      c ∈ fromTextChars piece node clk → ∀ id ∈ c.Pos,
        clk ≤ id.Digit ∧ id.Digit < clk + piece.length := by
  intro piece
  induction piece with
  | nil => intro node clk c hc; simp [fromTextChars] at hc
  | cons x rest ih =>
    intro node clk c hc id hid
    simp only [fromTextChars, List.mem_cons] at hc
    rcases hc with hc | hc
    · subst hc
      simp only [List.mem_singleton] at hid
      subst hid
      simp only [List.length_cons]
      constructor
      · exact le_refl _
      · push_cast
        omega
    · have := ih node (clk + 1) c hc id hid
      simp only [List.length_cons]
      push_cast at this ⊢
      omega

/-- `textWeight` is non-negative. -/
theorem textWeight_nonneg : ∀ pieces : List (List Char), 0 ≤ textWeight pieces := by
  intro pieces
  induction pieces with
  | nil => simp [textWeight]
  | cons z zs ihz =>
    cases zs with
    | nil => simp [textWeight]
    | cons z2 zs2 =>
      simp only [textWeight] at ihz ⊢
      have : (0 : Int) ≤ z.length := by positivity
      omega

/-- Digits of the characters produced by `fromTextLines` lie in
`[clk, clk + textWeight pieces)`. -/
theorem fromTextLines_digit_bounds :
    ∀ (pieces : List (List Char)) (node clk : Int) (l : Line),
      l ∈ fromTextLines pieces node clk → ∀ c ∈ l.Characters, ∀ id ∈ c.Pos,
        clk ≤ id.Digit ∧ id.Digit < clk + textWeight pieces := by
  intro pieces
  induction pieces with
  | nil => intro node clk l hl; simp [fromTextLines] at hl
  | cons p rest ih =>
    intro node clk l hl c hc id hid
    cases rest with
    | nil =>
      simp only [fromTextLines, List.mem_singleton] at hl
      subst hl
      exact fromTextChars_digit_bounds p node clk c hc id hid
    | cons p2 rest2 =>
      simp only [fromTextLines, List.mem_cons] at hl
      have hw : 0 ≤ textWeight (p2 :: rest2) := textWeight_nonneg _
      rcases hl with hl | hl
      · subst hl
        simp only [List.mem_append, List.mem_singleton] at hc
        rcases hc with hc | hc
        · have := fromTextChars_digit_bounds p node clk c hc id hid
          simp only [textWeight]
          omega
        · subst hc
          simp only [List.mem_singleton] at hid
          subst hid
          simp only [textWeight]
          have : (0 : Int) ≤ p.length := by positivity
          omega
      · have := ih node (clk + p.length + 1) l hl c hc id hid
        simp only [textWeight]
        have hp : (0 : Int) ≤ p.length := by positivity
        omega

/-- `textWeight` of the pieces of a split is the length of the text. -/
theorem textWeight_splitOn (s : List Char) :
    textWeight (List.splitOn '\n' s) = s.length := by
  have key : ∀ t : List Char, textWeight (t.splitOnP (· == '\n')) = t.length := by
    intro t
    induction t with
    | nil => simp [List.splitOnP_nil, textWeight]
    | cons c rest ih =>
      rw [List.splitOnP_cons]
      by_cases hc : c = '\n'
      · simp only [hc, beq_self_eq_true, if_true]
        have hne := List.splitOnP_ne_nil (fun x => x == '\n') rest
        rcases hsplit : rest.splitOnP (· == '\n') with _ | ⟨h, t2⟩
        · exact absurd hsplit hne
        · rw [hsplit] at ih
          simp only [textWeight, List.length_nil, List.length_cons]
          cases t2 with
          | nil => simp only [textWeight] at ih ⊢; push_cast; omega
          | cons a b =>
            simp only [textWeight] at ih ⊢
            push_cast at ih ⊢
            omega
      · have hb : (c == '\n') = false := by simp [hc]
        simp only [hb, if_false]
        have hne := List.splitOnP_ne_nil (fun x => x == '\n') rest
        rcases hsplit : rest.splitOnP (· == '\n') with _ | ⟨h, t2⟩
        · exact absurd hsplit hne
        · rw [hsplit] at ih
          rw [List.modifyHead_cons]
          cases t2 with
          | nil =>
            simp only [textWeight, List.length_cons] at ih ⊢
            push_cast at ih ⊢
            omega
          | cons a b =>
            simp only [textWeight, List.length_cons] at ih ⊢
            push_cast at ih ⊢
            omega
  exact key s

end crdt

set_option maxRecDepth 10000 in
/-- Claim C6, failing input: a 256-character text.  `FromText` uses the
running clock as the (single) digit of each position, so the 256th
character receives digit 256, outside `[0, BASE)`. -/
theorem claim_C6_counterexample :
    ∃ c ∈ crdt.flattenChars (crdt.FromText (List.replicate 256 'a') 1),
      ∃ id ∈ c.Pos, ¬ (0 ≤ id.Digit ∧ id.Digit < crdt.BASE) := by
  decide

/-- Claim C6 as amended: the digits `FromText` allocates are the clock
values `1 .. |s|`, so they lie in `[0, BASE)` provided the text is
shorter than `BASE = 256` characters. -/
theorem claim_C6_amended (s : List Char) (n : Int) (h : s.length < 256) :
    ∀ c ∈ crdt.flattenChars (crdt.FromText s n), ∀ id ∈ c.Pos,
      0 ≤ id.Digit ∧ id.Digit < crdt.BASE := by
  intro c hc id hid
  unfold crdt.FromText at hc
  by_cases hs : s = []
  · simp only [hs, if_true] at hc
    simp [crdt.flattenChars] at hc
  · simp only [hs, if_false] at hc
    simp only [crdt.flattenChars, List.mem_flatten, List.mem_map] at hc
    rcases hc with ⟨chars, ⟨l, hl, rfl⟩, hcl⟩
    have hb := crdt.fromTextLines_digit_bounds (List.splitOn '\n' s) n 1 l hl c hcl id hid
    rw [crdt.textWeight_splitOn] at hb
    unfold crdt.BASE
    omega

/-- Witness for the amended claim C6 at a concrete input. -/
theorem claim_C6_amended_witness :
    (("hi".toList : List Char).length < 256) ∧
    (∀ c ∈ crdt.flattenChars (crdt.FromText "hi".toList 1), ∀ id ∈ c.Pos,
      0 ≤ id.Digit ∧ id.Digit < crdt.BASE) :=
  ⟨by decide, claim_C6_amended "hi".toList 1 (by decide)⟩

/-- Claim C7.  Starting from `FromText "Hello" 1`, `GeneratePositionAt`
for the point between the two l characters yields `[(3,1),(1,2)]`;
inserting a newline there splits the document into the two lines
`Hel\n` and `lo` with text `Hel\nlo`, and deleting that position merges
them back into one line with text `Hello`. -/
theorem claim_C7 :
    crdt.GeneratePositionAt (crdt.FromText "Hello".toList 1) 1 4 2 =
      some [⟨3, 1⟩, ⟨1, 2⟩] ∧
    (crdt.InsertCharacter (crdt.FromText "Hello".toList 1) '\n'
        [⟨3, 1⟩, ⟨1, 2⟩] 10).map
      (fun d2 => (d2.Lines.map (fun l => l.Characters.map (·.Value)), crdt.ToText d2)) =
      .ok ([['H', 'e', 'l', '\n'], ['l', 'o']], "Hel\nlo".toList) ∧
    ((crdt.InsertCharacter (crdt.FromText "Hello".toList 1) '\n'
        [⟨3, 1⟩, ⟨1, 2⟩] 10).bind
      (fun d2 => crdt.DeleteCharacter d2 [⟨3, 1⟩, ⟨1, 2⟩])).map
      (fun d3 => (d3.Lines.length, crdt.ToText d3)) =
      .ok (1, "Hello".toList) := by
  refine ⟨by decide, by decide, by decide⟩

namespace crdt

/-- The pieces produced by splitting on the newline character contain no
newline character. -/
theorem splitOn_newline_not_mem :
    ∀ s : List Char, ∀ l ∈ List.splitOn '\n' s, '\n' ∉ l := by
  intro s
  show ∀ l ∈ s.splitOnP (· == '\n'), '\n' ∉ l
  induction s with
  | nil =>
    intro l hl
    rw [List.splitOnP_nil] at hl
    simp only [List.mem_singleton] at hl
    subst hl
    simp
  | cons c rest ih =>
    intro l hl
    rw [List.splitOnP_cons] at hl
    by_cases hc : c = '\n'
    · simp only [hc, beq_self_eq_true, if_true, List.mem_cons] at hl
      rcases hl with hl | hl
      · subst hl; simp
      · exact ih l hl
    · have hb : (c == '\n') = false := by simp [hc]
      rw [hb] at hl
      simp only [Bool.false_eq_true, if_false] at hl
      rcases hsplit : rest.splitOnP (· == '\n') with _ | ⟨h, t⟩
      · exact absurd hsplit (List.splitOnP_ne_nil _ rest)
      · rw [hsplit, List.modifyHead_cons, List.mem_cons] at hl
        rcases hl with hl | hl
        · subst hl
          intro hmem
          rw [List.mem_cons] at hmem
          rcases hmem with hmem | hmem
          · exact hc hmem.symm
          · exact ih h (by rw [hsplit]; exact List.mem_cons_self h t) hmem
        · exact ih l (by rw [hsplit]; exact List.mem_cons_of_mem h hl)

/-- The visible text of a line built by `fromTextChars` from a
newline-free piece is that piece. -/
theorem fromTextChars_text :
    ∀ (piece : List Char) (node clk : Int), '\n' ∉ piece →
      ((fromTextChars piece node clk).filter (fun c => decide (c.Value ≠ '\n'))).map (·.Value)
        = piece := by
  intro piece
  induction piece with
  | nil => intro node clk _; simp [fromTextChars]
  | cons x rest ih =>
    intro node clk h
    have hx : x ≠ '\n' := fun hh => h (hh ▸ List.mem_cons_self x rest)
    have hrest : '\n' ∉ rest := fun hh => h (List.mem_cons_of_mem x hh)
    simp only [fromTextChars, List.filter_cons]
    have : (decide (x ≠ '\n')) = true := by simp [hx]
    simp only [this, if_true, List.map_cons]
    rw [ih node (clk + 1) hrest]

/-- The value of `fromTextChars` at the values level. -/
theorem fromTextLines_map_text :
    ∀ (pieces : List (List Char)) (node clk : Int),
      (∀ l ∈ pieces, '\n' ∉ l) →
      (fromTextLines pieces node clk).map
          (fun l => (l.Characters.filter (fun c => decide (c.Value ≠ '\n'))).map (·.Value))
        = pieces := by
  intro pieces
  induction pieces with
  | nil => intro node clk _; simp [fromTextLines]
  | cons p rest ih =>
    intro node clk h
    have hp : '\n' ∉ p := h p (List.mem_cons_self p rest)
    cases rest with
    | nil =>
      simp only [fromTextLines, List.map_cons, List.map_nil]
      rw [fromTextChars_text p node clk hp]
    | cons p2 rest2 =>
      simp only [fromTextLines, List.map_cons]
      rw [List.filter_append]
      have hnl : (List.filter (fun c => decide (c.Value ≠ '\n'))
          [(⟨[⟨clk + p.length, node⟩], clk + p.length, '\n'⟩ : Character)]) = [] := by
        simp [List.filter_cons]
      rw [hnl, List.append_nil]
      rw [fromTextChars_text p node clk hp]
      have := ih node (clk + p.length + 1) (fun l hl => h l (List.mem_cons_of_mem p hl))
      exact congrArg (p :: ·) this

end crdt

/-- Claim C3: `FromText` round-trips through `ToText` for every text and
node id. -/
theorem claim_C3 (s : List Char) (n : Int) :
    crdt.ToText (crdt.FromText s n) = s := by
  unfold crdt.FromText
  by_cases hs : s = []
  · rw [if_pos hs, hs]
    decide
  · rw [if_neg hs]
    unfold crdt.ToText
    have hnl := crdt.splitOn_newline_not_mem s
    rw [show (List.splitOn '\n' s) = s.splitOnP (· == '\n') from rfl] at hnl ⊢
    rw [crdt.fromTextLines_map_text (s.splitOnP (· == '\n')) n 1 hnl]
    exact List.intercalate_splitOn s '\n'

/-- Claim C8, counterexample.  On the document of `FromText "" 1` the
single line is empty; the call `FindPositionAt 1 1` has `column = line
length + 1 = 1`, is in range, and succeeds — but it returns the empty
position, not "the position of the last character of that line": the
empty line has no characters at all. -/
theorem claim_C8_counterexample :
    crdt.FindPositionAt (crdt.FromText [] 1) 1 1 = .ok [] ∧
    ((crdt.FromText [] 1).Lines.getD 0 default).Characters = [] ∧
    ¬ ∃ ch ∈ ((crdt.FromText [] 1).Lines.getD 0 default).Characters,
        crdt.FindPositionAt (crdt.FromText [] 1) 1 1 = .ok ch.Pos := by
  refine ⟨by decide, by decide, by decide⟩

/-- Claim C8 as amended: `FindPositionAt` fails exactly when the
coordinates are out of range; a column at most the line length yields the
position of the character at 1-based (line, column); column equal to the
line length plus one yields the last character's position when the line
is non-empty, and the empty position when the line is empty. -/
theorem claim_C8_amended (d : crdt.Document) (line col : Int) :
    ((line < 1 ∨ line > (d.Lines.length : Int)) →
        crdt.FindPositionAt d line col = .error "line out of range") ∧
    (1 ≤ line → line ≤ (d.Lines.length : Int) →
      ((col < 1 ∨ col > (((d.Lines.getD (line - 1).toNat default).Characters.length : Int)) + 1) →
          crdt.FindPositionAt d line col = .error "column out of range") ∧
      (1 ≤ col → col ≤ ((d.Lines.getD (line - 1).toNat default).Characters.length : Int) →
          crdt.FindPositionAt d line col =
            .ok (((d.Lines.getD (line - 1).toNat default).Characters.getD (col - 1).toNat default).Pos)) ∧
      (col = ((d.Lines.getD (line - 1).toNat default).Characters.length : Int) + 1 →
        0 < (d.Lines.getD (line - 1).toNat default).Characters.length →
          crdt.FindPositionAt d line col =
            .ok (((d.Lines.getD (line - 1).toNat default).Characters.getLastD default).Pos)) ∧
      (col = ((d.Lines.getD (line - 1).toNat default).Characters.length : Int) + 1 →
        (d.Lines.getD (line - 1).toNat default).Characters.length = 0 →
          crdt.FindPositionAt d line col = .ok [])) := by
  unfold crdt.FindPositionAt
  constructor
  · intro h
    rw [if_pos h]
  · intro h1 h2
    have hline : ¬ (line < 1 ∨ line > (d.Lines.length : Int)) := by omega
    rw [if_neg hline]
    refine ⟨?_, ?_, ?_, ?_⟩
    · intro h
      rw [if_pos h]
    · intro hc1 hc2
      have hcol : ¬ (col < 1 ∨ col > ((d.Lines.getD (line - 1).toNat default).Characters.length : Int) + 1) := by
        omega
      rw [if_neg hcol, if_pos hc2]
    · intro hc hlen
      have hcol : ¬ (col < 1 ∨ col > ((d.Lines.getD (line - 1).toNat default).Characters.length : Int) + 1) := by
        omega
      have hgt : ¬ (col ≤ ((d.Lines.getD (line - 1).toNat default).Characters.length : Int)) := by
        omega
      rw [if_neg hcol, if_neg hgt, if_pos hlen]
    · intro hc hlen
      have hcol : ¬ (col < 1 ∨ col > ((d.Lines.getD (line - 1).toNat default).Characters.length : Int) + 1) := by
        omega
      have hgt : ¬ (col ≤ ((d.Lines.getD (line - 1).toNat default).Characters.length : Int)) := by
        omega
      have hlen0 : ¬ (0 < (d.Lines.getD (line - 1).toNat default).Characters.length) := by
        omega
      rw [if_neg hcol, if_neg hgt, if_neg hlen0]

/-- Witness for the amended claim C8 at concrete inputs. -/
theorem claim_C8_amended_witness :
    crdt.FindPositionAt (crdt.FromText "ab".toList 1) 1 2 = .ok [⟨2, 1⟩] ∧
    crdt.FindPositionAt (crdt.FromText "ab".toList 1) 1 3 = .ok [⟨2, 1⟩] ∧
    crdt.FindPositionAt (crdt.FromText "ab".toList 1) 5 1 = .error "line out of range" := by
  refine ⟨?_, ?_, ?_⟩
  · have h := (claim_C8_amended (crdt.FromText "ab".toList 1) 1 2).2 (by decide) (by decide)
    have h2 := h.2.1 (by decide) (by decide)
    rw [h2]
    decide
  · have h := (claim_C8_amended (crdt.FromText "ab".toList 1) 1 3).2 (by decide) (by decide)
    have h2 := h.2.2.1 (by decide) (by decide)
    rw [h2]
    decide
  · exact (claim_C8_amended (crdt.FromText "ab".toList 1) 5 1).1 (by decide)

namespace cursor

/-- Equality of identifiers componentwise. -/
theorem identifier_ext (x y : crdt.Identifier) :
    x = y ↔ x.Digit = y.Digit ∧ x.Node = y.Node := by
  constructor
  · intro h; subst h; exact ⟨rfl, rfl⟩
  · intro ⟨h1, h2⟩; cases x; cases y; simp_all

/-- Unfolding `identifiersEqual` on cons cells. -/
theorem identifiersEqual_cons (x y : crdt.Identifier)
    (as bs : List crdt.Identifier) :
    identifiersEqual (x :: as) (y :: bs) =
      ((x.Digit == y.Digit && x.Node == y.Node) && identifiersEqual as bs) := by
  unfold identifiersEqual
  by_cases hl : as.length = bs.length
  · have h1 : ¬ ((x :: as).length ≠ (y :: bs).length) := by simp [hl]
    have h2 : ¬ (as.length ≠ bs.length) := by simp [hl]
    rw [if_neg h1, if_neg h2, List.zip_cons_cons, List.all_cons]
  · have h1 : ((x :: as).length ≠ (y :: bs).length) := by simp; omega
    rw [if_pos h1, if_pos hl]
    simp

/-- `identifiersEqual` decides structural equality of positions. -/
theorem identifiersEqual_iff :
    ∀ a b : List crdt.Identifier, identifiersEqual a b = true ↔ a = b := by
  intro a
  induction a with
  | nil =>
    intro b
    cases b with
    | nil => simp [identifiersEqual]
    | cons y bs => simp [identifiersEqual]
  | cons x as ih =>
    intro b
    cases b with
    | nil => simp [identifiersEqual]
    | cons y bs =>
      rw [identifiersEqual_cons]
      simp only [Bool.and_eq_true, beq_iff_eq, ih bs, List.cons.injEq,
        identifier_ext]

/-- The search loop misses every line whose characters all differ from
the target position. -/
theorem searchCoords_none :
    ∀ (lines : List crdt.Line) (p : List crdt.Identifier),
      (∀ l ∈ lines, ∀ c ∈ l.Characters, c.Pos ≠ p) →
      searchCoords lines p = none := by
  intro lines p
  induction lines with
  | nil => intro _; rfl
  | cons l ls ih =>
    intro h
    have hfind : l.Characters.findIdx? (fun ch => identifiersEqual ch.Pos p) = none := by
      rw [List.findIdx?_eq_none_iff]
      intro c hc
      have := h l (List.mem_cons_self l ls) c hc
      rw [← Bool.not_eq_true, identifiersEqual_iff]
      exact this
    unfold searchCoords
    rw [hfind]
    rw [ih (fun l' hl' c hc => h l' (List.mem_cons_of_mem l hl') c hc)]
    rfl

/-- `findIdx?` finds the head of the first matching suffix. -/
theorem findIdx?_append_first {α : Type _} (pred : α → Bool) (c : α)
    (h : pred c = true) :
    ∀ (cpre cpost : List α), (∀ x ∈ cpre, pred x = false) → ∀ i : Nat,
      List.findIdx? pred (cpre ++ c :: cpost) i = some (i + cpre.length) := by
  intro cpre
  induction cpre with
  | nil =>
    intro cpost _ i
    rw [List.nil_append, List.findIdx?_cons, if_pos h]
    simp
  | cons x xs ih =>
    intro cpost hmiss i
    rw [List.cons_append, List.findIdx?_cons]
    have hx : pred x = false := hmiss x (List.mem_cons_self x xs)
    rw [hx]
    simp only [Bool.false_eq_true, if_false]
    rw [ih cpost (fun y hy => hmiss y (List.mem_cons_of_mem x hy)) (i + 1)]
    simp only [List.length_cons]
    congr 1
    omega

/-- The search loop finds the first character whose position equals the
target. -/
theorem searchCoords_found :
    ∀ (pre : List crdt.Line) (l : crdt.Line) (post : List crdt.Line)
      (cpre : List crdt.Character) (c : crdt.Character)
      (cpost : List crdt.Character) (p : List crdt.Identifier),
      l.Characters = cpre ++ c :: cpost → c.Pos = p →
      (∀ l' ∈ pre, ∀ c' ∈ l'.Characters, c'.Pos ≠ p) →
      (∀ c' ∈ cpre, c'.Pos ≠ p) →
      searchCoords (pre ++ l :: post) p = some (pre.length, cpre.length) := by
  intro pre
  induction pre with
  | nil =>
    intro l post cpre c cpost p hchars hcpos _ hcpre
    rw [List.nil_append]
    unfold searchCoords
    rw [hchars]
    have hpred : identifiersEqual c.Pos p = true := by
      rw [identifiersEqual_iff]; exact hcpos
    rw [findIdx?_append_first _ c hpred cpre cpost
      (fun x hx => by
        rw [← Bool.not_eq_true, identifiersEqual_iff]
        exact hcpre x hx) 0]
    simp
  | cons l0 pres ih =>
    intro l post cpre c cpost p hchars hcpos hpre hcpre
    rw [List.cons_append]
    unfold searchCoords
    have hfind : l0.Characters.findIdx? (fun ch => identifiersEqual ch.Pos p) = none := by
      rw [List.findIdx?_eq_none_iff]
      intro x hx
      rw [← Bool.not_eq_true, identifiersEqual_iff]
      exact hpre l0 (List.mem_cons_self l0 pres) x hx
    rw [hfind]
    rw [ih l post cpre c cpost p hchars hcpos
      (fun l' hl' c' hc' => hpre l' (List.mem_cons_of_mem l0 hl') c' hc') hcpre]
    rfl

end cursor

/-- Claim C9: for a non-empty position `p` (positions are non-empty by
the data model) and a document with at least one line,
`GetTextCoordsFromCRDTPosition` returns the 1-based coordinates of the
character whose position equals `p` when one exists (stated via the
decomposition of the document around that character, the earlier
characters all missing `p`), and the end-of-document coordinates
(last line, last line's character count + 1) when no character's
position equals `p`. -/
theorem claim_C9 (d : crdt.Document) (p : List crdt.Identifier) (hp : p ≠ []) :
    (∀ (pre : List crdt.Line) (l : crdt.Line) (post : List crdt.Line)
        (cpre : List crdt.Character) (c : crdt.Character)
        (cpost : List crdt.Character),
        d.Lines = pre ++ l :: post →
        l.Characters = cpre ++ c :: cpost →
        c.Pos = p →
        (∀ l' ∈ pre, ∀ c' ∈ l'.Characters, c'.Pos ≠ p) →
        (∀ c' ∈ cpre, c'.Pos ≠ p) →
        cursor.GetTextCoordsFromCRDTPosition d p =
          ⟨(pre.length : Int) + 1, (cpre.length : Int) + 1⟩) ∧
    ((∀ c ∈ crdt.flattenChars d, c.Pos ≠ p) → d.Lines ≠ [] →
        cursor.GetTextCoordsFromCRDTPosition d p =
          ⟨(d.Lines.length : Int),
            ((d.Lines.getLastD default).Characters.length : Int) + 1⟩) := by
  have hlen : ¬ (p.length = 0) := by
    cases p with
    | nil => exact absurd rfl hp
    | cons a as => simp
  constructor
  · intro pre l post cpre c cpost hlines hchars hcpos hpre hcpre
    unfold cursor.GetTextCoordsFromCRDTPosition
    rw [if_neg hlen, hlines,
      cursor.searchCoords_found pre l post cpre c cpost p hchars hcpos hpre hcpre]
  · intro hmiss hne
    unfold cursor.GetTextCoordsFromCRDTPosition
    rw [if_neg hlen]
    have hsc : cursor.searchCoords d.Lines p = none := by
      apply cursor.searchCoords_none
      intro l hl c hc
      apply hmiss
      unfold crdt.flattenChars
      rw [List.mem_flatten]
      exact ⟨l.Characters, List.mem_map_of_mem crdt.Line.Characters hl, hc⟩
    rw [hsc]
    rw [List.getLast?_eq_getLast d.Lines hne]
    have : d.Lines.getLastD default = d.Lines.getLast hne := by
      rw [List.getLastD_eq_getLast?, List.getLast?_eq_getLast d.Lines hne]
      rfl
    rw [this]

/-- Witness for claim C9 at concrete inputs: the found case and the
end-of-document case. -/
theorem claim_C9_witness :
    cursor.GetTextCoordsFromCRDTPosition (crdt.FromText "ab".toList 1) [⟨2, 1⟩] = ⟨1, 2⟩ ∧
    cursor.GetTextCoordsFromCRDTPosition (crdt.FromText "ab".toList 1) [⟨9, 9⟩] = ⟨1, 3⟩ := by
  constructor
  · have h := (claim_C9 (crdt.FromText "ab".toList 1) [⟨2, 1⟩] (by decide)).1
      [] ⟨[⟨[⟨1, 1⟩], 1, 'a'⟩, ⟨[⟨2, 1⟩], 2, 'b'⟩]⟩ []
      [⟨[⟨1, 1⟩], 1, 'a'⟩] ⟨[⟨2, 1⟩], 2, 'b'⟩ []
      (by decide) (by decide) (by decide) (by decide) (by decide)
    rw [h]
    decide
  · have h := (claim_C9 (crdt.FromText "ab".toList 1) [⟨9, 9⟩] (by decide)).2
      (by decide) (by decide)
    rw [h]
    decide

namespace crdt

theorem flattenChars_eq (d : Document) : flattenChars d = flattenLines d.Lines := rfl

theorem flattenLines_nil : flattenLines [] = [] := rfl

theorem flattenLines_cons (l : Line) (ls : List Line) :
    flattenLines (l :: ls) = l.Characters ++ flattenLines ls := by
  simp [flattenLines]

theorem flattenLines_append (a b : List Line) :
    flattenLines (a ++ b) = flattenLines a ++ flattenLines b := by
  simp [flattenLines]

theorem list_set_append {α : Type _} :
    ∀ (pre : List α) (y x : α) (post : List α),
      (pre ++ y :: post).set pre.length x = pre ++ x :: post := by
  intro pre
  induction pre with
  | nil => intro y x post; rfl
  | cons a pres ih =>
    intro y x post
    simp only [List.cons_append, List.length_cons, List.set_cons_succ]
    rw [ih]

theorem list_getD_append {α : Type _} :
    ∀ (pre : List α) (y : α) (post : List α) (dflt : α),
      (pre ++ y :: post).getD pre.length dflt = y := by
  intro pre
  induction pre with
  | nil => intro y post dflt; rfl
  | cons a pres ih =>
    intro y post dflt
    simp only [List.cons_append, List.length_cons]
    exact ih y post dflt

theorem list_take_append_succ {α : Type _} :
    ∀ (pre : List α) (x : α) (post : List α),
      (pre ++ x :: post).take (pre.length + 1) = pre ++ [x] := by
  intro pre
  induction pre with
  | nil => intro x post; rfl
  | cons a pres ih =>
    intro x post
    simp only [List.cons_append, List.length_cons, List.take_succ_cons]
    rw [ih]

theorem list_drop_append_two {α : Type _} :
    ∀ (pre : List α) (x y : α) (post : List α),
      (pre ++ x :: y :: post).drop (pre.length + 2) = post := by
  intro pre
  induction pre with
  | nil => intro x y post; rfl
  | cons a pres ih =>
    intro x y post
    simp only [List.cons_append, List.length_cons]
    show (pres ++ x :: y :: post).drop (pres.length + 2) = post
    exact ih x y post

/-- If the line-major scan misses everywhere, `findCharacterLines` is
`none`. -/
theorem findCharacterLines_none :
    ∀ (lines : List Line) (p : List Identifier),
      (∀ l ∈ lines, ∀ c ∈ l.Characters, comparePositions p c.Pos ≠ 0) →
      findCharacterLines lines p = none := by
  intro lines p
  induction lines with
  | nil => intro _; rfl
  | cons l ls ih =>
    intro h
    have hfind : l.Characters.findIdx?
        (fun ch => decide (comparePositions p ch.Pos = 0)) = none := by
      rw [List.findIdx?_eq_none_iff]
      intro c hc
      exact decide_eq_false (h l (List.mem_cons_self l ls) c hc)
    unfold findCharacterLines
    rw [hfind, ih (fun l' hl' c hc => h l' (List.mem_cons_of_mem l hl') c hc)]
    rfl

/-- A successful `findCharacterLines` yields a decomposition of the lines
around a character whose position compares equal to the target. -/
theorem findCharacterLines_some :
    ∀ (lines : List Line) (p : List Identifier) (li ci : Nat),
      findCharacterLines lines p = some (li, ci) →
      ∃ pre l post cpre c cpost,
        lines = pre ++ l :: post ∧ pre.length = li ∧
        l.Characters = cpre ++ c :: cpost ∧ cpre.length = ci ∧
        comparePositions p c.Pos = 0 := by
  intro lines
  induction lines with
  | nil => intro p li ci h; exact absurd h (by simp [findCharacterLines])
  | cons l ls ih =>
    intro p li ci h
    unfold findCharacterLines at h
    cases hf : l.Characters.findIdx? (fun ch => decide (comparePositions p ch.Pos = 0)) with
    | some ci0 =>
      rw [hf] at h
      obtain ⟨hlt, hpred, _⟩ := List.findIdx?_eq_some_iff_getElem.mp hf
      have hli : li = 0 := by
        have := Option.some.inj h
        exact (Prod.mk.injEq _ _ _ _ ▸ this).1.symm ▸ rfl
      have hci : ci = ci0 := by
        have := Option.some.inj h
        have h2 := (Prod.mk.injEq _ _ _ _ ▸ this).2
        exact h2.symm
      refine ⟨[], l, ls, l.Characters.take ci0, l.Characters[ci0],
        l.Characters.drop (ci0 + 1), rfl, by simp [hli], ?_, ?_, ?_⟩
      · rw [List.getElem_cons_drop, List.take_append_drop]
      · rw [List.length_take, hci]
        omega
      · exact of_decide_eq_true hpred
    | none =>
      rw [hf] at h
      cases hr : findCharacterLines ls p with
      | none => rw [hr] at h; exact absurd h (by simp)
      | some q =>
        rw [hr] at h
        simp only [Option.map_some] at h
        obtain ⟨pre, l2, post, cpre, c, cpost, hlines, hlen, hchars, hclen, hcmp⟩ :=
          ih p q.1 q.2 (by rw [hr])
        have hq := Option.some.inj h
        refine ⟨l :: pre, l2, post, cpre, c, cpost, by simp [hlines], ?_, hchars, ?_, hcmp⟩
        · simp only [List.length_cons, hlen]
          exact congrArg (fun z => z.1) hq
        · rw [hclen]
          exact congrArg (fun z => z.2) hq

/-- A found delete: the document's characters lose exactly the found
character, all others keeping their order (the merge of a successor line
after a newline deletion concatenates in order). -/
theorem DeleteCharacter_flatten
    (d : Document) (p : List Identifier) (pre : List Line) (l : Line)
    (post : List Line) (cpre : List Character) (c : Character)
    (cpost : List Character)
    (hfind : findCharacter d p = some (pre.length, cpre.length))
    (hlines : d.Lines = pre ++ l :: post)
    (hchars : l.Characters = cpre ++ c :: cpost) :
    ∃ d', DeleteCharacter d p = .ok d' ∧
      flattenChars d' = (flattenLines pre ++ cpre) ++ (cpost ++ flattenLines post) := by
  have hgetL : d.Lines.getD pre.length default = l := by
    rw [hlines]; exact list_getD_append pre l post default
  have hgetC : l.Characters.getD cpre.length default = c := by
    rw [hchars]; exact list_getD_append cpre c cpost default
  have htake : l.Characters.take cpre.length = cpre := by
    rw [hchars]; exact List.take_left' rfl
  have hdrop : l.Characters.drop (cpre.length + 1) = cpost := by
    rw [hchars, List.append_cons cpre c cpost]
    exact List.drop_left' (by simp)
  have hlen : d.Lines.length = pre.length + 1 + post.length := by
    rw [hlines]; simp; omega
  unfold DeleteCharacter
  rw [hfind]
  dsimp only
  rw [hgetL, hgetC, htake, hdrop]
  by_cases hval : c.Value = '\n'
  · rw [if_pos hval]
    by_cases hsucc : pre.length + 1 < d.Lines.length
    · rw [if_pos hsucc]
      have hpost : post ≠ [] := by
        intro hp
        rw [hp] at hlen
        simp at hlen
        omega
      cases post with
      | nil => exact absurd rfl hpost
      | cons next post2 =>
        have hgetN : d.Lines.getD (pre.length + 1) default = next := by
          rw [hlines, List.append_cons pre l (next :: post2)]
          have : (pre ++ [l]).length = pre.length + 1 := by simp
          rw [← this]
          exact list_getD_append (pre ++ [l]) next post2 default
        rw [hgetN, hlines, list_set_append, list_take_append_succ,
          list_drop_append_two]
        refine ⟨_, rfl, ?_⟩
        rw [flattenChars_eq]
        simp only [flattenLines_append, flattenLines_cons, flattenLines_nil]
        simp [List.append_assoc]
    · rw [if_neg hsucc]
      have hpost : post = [] := by
        cases post with
        | nil => rfl
        | cons next post2 =>
          exfalso
          apply hsucc
          rw [hlen]
          simp only [List.length_cons]
          omega
      subst hpost
      rw [hlines, list_set_append]
      refine ⟨_, rfl, ?_⟩
      rw [flattenChars_eq]
      simp only [flattenLines_append, flattenLines_cons, flattenLines_nil]
      simp [List.append_assoc]
  · rw [if_neg hval]
    rw [hlines, list_set_append]
    refine ⟨_, rfl, ?_⟩
    rw [flattenChars_eq]
    simp only [flattenLines_append, flattenLines_cons, flattenLines_nil]
    simp [List.append_assoc]

/-- Deleting an absent position fails with the NotFound error (and, the
model being functional, no document is produced). -/
theorem DeleteCharacter_not_found (d : Document) (p : List Identifier)
    (h : ∀ c ∈ flattenChars d, comparePositions p c.Pos ≠ 0) :
    DeleteCharacter d p = .error "character not found at position" := by
  have hnone : findCharacter d p = none := by
    apply findCharacterLines_none
    intro l hl c hc
    apply h
    rw [flattenChars_eq]
    unfold flattenLines
    rw [List.mem_flatten]
    exact ⟨l.Characters, List.mem_map_of_mem Line.Characters hl, hc⟩
  unfold DeleteCharacter
  rw [hnone]

end crdt

/-- Claim C4: deleting a position absent from the document (no character
compares equal to it) returns the NotFound error; and on a document with
pairwise distinct positions, after a successful delete of `p` a second
delete of `p` returns NotFound.  (In the pure model an erroring call
produces no document, which is the Go code returning before any
mutation.) -/
theorem claim_C4 (d : crdt.Document) (p : List crdt.Identifier) :
    ((∀ c ∈ crdt.flattenChars d, crdt.comparePositions p c.Pos ≠ 0) →
        crdt.DeleteCharacter d p = .error "character not found at position") ∧
    (List.Pairwise (fun a b => crdt.comparePositions a.Pos b.Pos ≠ 0)
        (crdt.flattenChars d) →
      ∀ d', crdt.DeleteCharacter d p = .ok d' →
        crdt.DeleteCharacter d' p = .error "character not found at position") := by
  constructor
  · exact crdt.DeleteCharacter_not_found d p
  · intro hpw d' hok
    cases hf : crdt.findCharacter d p with
    | none =>
      unfold crdt.DeleteCharacter at hok
      rw [hf] at hok
      exact absurd hok (by simp)
    | some q =>
      obtain ⟨pre, l, post, cpre, c, cpost, hlines, hplen, hchars, hclen, hcmp⟩ :=
        crdt.findCharacterLines_some d.Lines p q.1 q.2 (by rw [← hf]; rfl)
      have hfind : crdt.findCharacter d p = some (pre.length, cpre.length) := by
        rw [hf, hplen, hclen]
      obtain ⟨d'', hdel, hflat⟩ :=
        crdt.DeleteCharacter_flatten d p pre l post cpre c cpost hfind hlines hchars
      have hdd : d' = d'' := by
        rw [hdel] at hok
        exact (Except.ok.inj hok).symm
      subst hdd
      apply crdt.DeleteCharacter_not_found
      intro x hx
      rw [hflat] at hx
      have hflatd : crdt.flattenChars d =
          (crdt.flattenLines pre ++ cpre) ++ c :: (cpost ++ crdt.flattenLines post) := by
        rw [crdt.flattenChars_eq, hlines, crdt.flattenLines_append,
          crdt.flattenLines_cons, hchars]
        simp [List.append_assoc]
      rw [hflatd] at hpw
      have hp_eq : p = c.Pos := (crdt.comparePositions_eq_zero_iff p c.Pos).mp hcmp
      rcases List.pairwise_append.mp hpw with ⟨_, hcB, hAB⟩
      rcases List.pairwise_cons.mp hcB with ⟨hcB', _⟩
      rcases List.mem_append.mp hx with hxA | hxB
      · have hne := hAB x hxA c (List.mem_cons_self c _)
        rw [hp_eq]
        intro hcontra
        rw [crdt.comparePositions_swap] at hcontra
        omega
      · rw [hp_eq]
        exact hcB' x hxB

/-- Witness for claim C4 at concrete inputs. -/
theorem claim_C4_witness :
    crdt.DeleteCharacter (crdt.FromText "ab".toList 1) [⟨9, 9⟩] =
      .error "character not found at position" ∧
    ∀ d', crdt.DeleteCharacter (crdt.FromText "ab".toList 1) [⟨1, 1⟩] = .ok d' →
      crdt.DeleteCharacter d' [⟨1, 1⟩] = .error "character not found at position" := by
  constructor
  · exact (claim_C4 (crdt.FromText "ab".toList 1) [⟨9, 9⟩]).1 (by decide)
  · exact (claim_C4 (crdt.FromText "ab".toList 1) [⟨1, 1⟩]).2 (by decide)

namespace crdt

/-- A regular insertion at the coordinates computed by
`getLineAndCharIndex` for a flat index within range splices the new
character into the flattened document at that flat index. -/
theorem regular_insert_flatten :
    ∀ (lines : List Line) (j : Nat) (c : Character),
      j < (flattenLines lines).length →
      flattenLines (lines.set (gLCIGo lines j).1
          ⟨(lines.getD (gLCIGo lines j).1 default).Characters.take (gLCIGo lines j).2 ++ [c] ++
            (lines.getD (gLCIGo lines j).1 default).Characters.drop (gLCIGo lines j).2⟩) =
        (flattenLines lines).take j ++ [c] ++ (flattenLines lines).drop j := by
  intro lines
  induction lines with
  | nil => intro j c hj; simp [flattenLines] at hj
  | cons l ls ih =>
    intro j c hj
    cases ls with
    | nil =>
      have hj' : j < l.Characters.length := by
        simpa [flattenLines] using hj
      show flattenLines ([l].set (gLCIGo [l] j).1 _) = _
      rw [show gLCIGo [l] j = (0, j) from by unfold gLCIGo; rw [if_pos hj']]
      simp only [List.getD_cons_zero, List.set_cons_zero]
      rw [flattenLines_cons, flattenLines_cons, flattenLines_nil]
      simp only [List.append_nil]
    | cons l2 ls2 =>
      by_cases hjl : j < l.Characters.length
      · rw [show gLCIGo (l :: l2 :: ls2) j = (0, j) from by
          unfold gLCIGo; rw [if_pos hjl]]
        simp only [List.getD_cons_zero, List.set_cons_zero]
        simp only [flattenLines_cons]
        rw [List.take_append_of_le_length (le_of_lt hjl),
          List.drop_append_of_le_length (le_of_lt hjl)]
        simp [List.append_assoc]
      · have hq : gLCIGo (l :: l2 :: ls2) j =
            ((gLCIGo (l2 :: ls2) (j - l.Characters.length)).1 + 1,
             (gLCIGo (l2 :: ls2) (j - l.Characters.length)).2) := by
          rw [show gLCIGo (l :: l2 :: ls2) j =
            (if j < l.Characters.length then ((0 : Nat), j)
             else ((gLCIGo (l2 :: ls2) (j - l.Characters.length)).1 + 1,
                   (gLCIGo (l2 :: ls2) (j - l.Characters.length)).2)) from rfl]
          rw [if_neg hjl]
        rw [hq]
        simp only [List.getD_cons_succ, List.set_cons_succ]
        have hj2 : j - l.Characters.length < (flattenLines (l2 :: ls2)).length := by
          rw [flattenLines_cons] at hj
          simp only [List.length_append] at hj
          omega
        rw [show flattenLines (Line.mk l.Characters :: (l2 :: ls2).set (gLCIGo (l2 :: ls2) (j - l.Characters.length)).1
            ⟨((l2 :: ls2).getD (gLCIGo (l2 :: ls2) (j - l.Characters.length)).1 default).Characters.take
                (gLCIGo (l2 :: ls2) (j - l.Characters.length)).2 ++ [c] ++
              ((l2 :: ls2).getD (gLCIGo (l2 :: ls2) (j - l.Characters.length)).1 default).Characters.drop
                (gLCIGo (l2 :: ls2) (j - l.Characters.length)).2⟩) =
          l.Characters ++ flattenLines ((l2 :: ls2).set (gLCIGo (l2 :: ls2) (j - l.Characters.length)).1
            ⟨((l2 :: ls2).getD (gLCIGo (l2 :: ls2) (j - l.Characters.length)).1 default).Characters.take
                (gLCIGo (l2 :: ls2) (j - l.Characters.length)).2 ++ [c] ++
              ((l2 :: ls2).getD (gLCIGo (l2 :: ls2) (j - l.Characters.length)).1 default).Characters.drop
                (gLCIGo (l2 :: ls2) (j - l.Characters.length)).2⟩)
          from flattenLines_cons _ _]
        rw [ih (j - l.Characters.length) c hj2]
        rw [show flattenLines (l :: l2 :: ls2) = l.Characters ++ flattenLines (l2 :: ls2)
          from flattenLines_cons _ _]
        rw [List.take_append_eq_append_take, List.drop_append_eq_append_drop]
        rw [List.take_of_length_le (Nat.le_of_not_lt hjl),
          List.drop_of_length_le (Nat.le_of_not_lt hjl)]
        simp [List.append_assoc]

/-- The same for an insertion at the end of the last line. -/
theorem end_insert_flatten :
    ∀ (lines : List Line) (c : Character) (h : lines ≠ []),
      flattenLines (lines.set (lines.length - 1)
          ⟨(lines.getLast h).Characters ++ [c]⟩) = flattenLines lines ++ [c] := by
  intro lines
  induction lines with
  | nil => intro c h; exact absurd rfl h
  | cons l ls ih =>
    intro c h
    cases ls with
    | nil =>
      simp [flattenLines, List.getLast_singleton]
    | cons l2 ls2 =>
      have hne : (l2 :: ls2) ≠ [] := by simp
      have hlast : (l :: l2 :: ls2).getLast h = (l2 :: ls2).getLast hne :=
        List.getLast_cons hne
      have hlen : (l :: l2 :: ls2).length - 1 = ((l2 :: ls2).length - 1) + 1 := by
        simp
      rw [hlast, hlen, List.set_cons_succ]
      rw [flattenLines_cons, flattenLines_cons, ih c hne]
      simp [List.append_assoc]

/-- A newline insertion at in-range coordinates splices the newline
character into the flattened document at the flat index (the line split
does not change the flat order). -/
theorem newline_insert_flatten :
    ∀ (lines : List Line) (j : Nat) (c : Character),
      j < (flattenLines lines).length →
      flattenLines
          ((lines.set (gLCIGo lines j).1
              ⟨(lines.getD (gLCIGo lines j).1 default).Characters.take (gLCIGo lines j).2 ++ [c]⟩).take
                ((gLCIGo lines j).1 + 1) ++
            [⟨(lines.getD (gLCIGo lines j).1 default).Characters.drop (gLCIGo lines j).2⟩] ++
            (lines.set (gLCIGo lines j).1
              ⟨(lines.getD (gLCIGo lines j).1 default).Characters.take (gLCIGo lines j).2 ++ [c]⟩).drop
                ((gLCIGo lines j).1 + 1)) =
        (flattenLines lines).take j ++ [c] ++ (flattenLines lines).drop j := by
  intro lines
  induction lines with
  | nil => intro j c hj; simp [flattenLines] at hj
  | cons l ls ih =>
    intro j c hj
    cases ls with
    | nil =>
      have hj' : j < l.Characters.length := by
        simpa [flattenLines] using hj
      rw [show gLCIGo [l] j = (0, j) from by unfold gLCIGo; rw [if_pos hj']]
      simp [flattenLines, List.append_assoc]
    | cons l2 ls2 =>
      by_cases hjl : j < l.Characters.length
      · rw [show gLCIGo (l :: l2 :: ls2) j = (0, j) from by
          unfold gLCIGo; rw [if_pos hjl]]
        simp [flattenLines, List.take_append_of_le_length (le_of_lt hjl),
          List.drop_append_of_le_length (le_of_lt hjl), List.append_assoc]
      · have hq : gLCIGo (l :: l2 :: ls2) j =
            ((gLCIGo (l2 :: ls2) (j - l.Characters.length)).1 + 1,
             (gLCIGo (l2 :: ls2) (j - l.Characters.length)).2) := by
          rw [show gLCIGo (l :: l2 :: ls2) j =
            (if j < l.Characters.length then ((0 : Nat), j)
             else ((gLCIGo (l2 :: ls2) (j - l.Characters.length)).1 + 1,
                   (gLCIGo (l2 :: ls2) (j - l.Characters.length)).2)) from rfl]
          rw [if_neg hjl]
        rw [hq]
        simp only [List.getD_cons_succ, List.set_cons_succ, List.take_succ_cons,
          List.drop_succ_cons]
        rw [List.cons_append, List.cons_append]
        rw [flattenLines_cons, flattenLines_cons]
        have hj2 : j - l.Characters.length < (flattenLines (l2 :: ls2)).length := by
          rw [flattenLines_cons] at hj
          simp only [List.length_append] at hj
          omega
        have := ih (j - l.Characters.length) c hj2
        rw [List.append_assoc, List.append_assoc] at this ⊢
        rw [this]
        rw [List.take_append_eq_append_take, List.drop_append_eq_append_drop]
        rw [List.take_of_length_le (Nat.le_of_not_lt hjl),
          List.drop_of_length_le (Nat.le_of_not_lt hjl)]
        simp [List.append_assoc]

/-- The same for a newline insertion at the end of the last line: the
newline is appended and an empty successor line created. -/
theorem newline_end_insert_flatten :
    ∀ (lines : List Line) (c : Character) (h : lines ≠ []),
      flattenLines
          ((lines.set (lines.length - 1) ⟨(lines.getLast h).Characters ++ [c]⟩).take
              ((lines.length - 1) + 1) ++
            [⟨[]⟩] ++
            (lines.set (lines.length - 1) ⟨(lines.getLast h).Characters ++ [c]⟩).drop
              ((lines.length - 1) + 1)) =
        flattenLines lines ++ [c] := by
  intro lines c h
  have hl1 : (lines.length - 1) + 1 = lines.length := by
    cases lines with
    | nil => exact absurd rfl h
    | cons a as => simp
  have hle : (lines.set (lines.length - 1) ⟨(lines.getLast h).Characters ++ [c]⟩).length
      ≤ (lines.length - 1) + 1 := by
    rw [List.length_set, hl1]
  rw [List.take_of_length_le hle, List.drop_of_length_le hle]
  rw [flattenLines_append, flattenLines_append]
  rw [end_insert_flatten lines c h]
  simp [flattenLines]

end crdt

namespace crdt

/-- A sort with a comparator leaves a list already sorted by that
comparator unchanged. -/
theorem sortByLess_eq_self {α : Type _} (le : α → α → Bool) :
    ∀ l : List α, List.Pairwise (fun a b => le a b = true) l →
      sortByLess le l = l := by
  intro l
  induction l with
  | nil => intro _; rfl
  | cons a as ih =>
    intro h
    rcases List.pairwise_cons.mp h with ⟨ha, htail⟩
    show insertByLess le a (sortByLess le as) = a :: as
    rw [ih htail]
    cases as with
    | nil => rfl
    | cons b bs =>
      show (if le a b then a :: b :: bs else b :: insertByLess le a bs) = a :: b :: bs
      rw [if_pos (ha b (List.mem_cons_self b bs))]

/-- On a document whose flattened characters are strictly sorted,
`getAllCharacters` is the flattening itself. -/
theorem getAllCharacters_eq_flatten (d : Document)
    (h : List.Pairwise (fun a b => comparePositions a.Pos b.Pos < 0)
      (flattenChars d)) :
    getAllCharacters d = flattenChars d := by
  unfold getAllCharacters
  refine sortByLess_eq_self charLess (flattenChars d) (h.imp ?_)
  intro a b hab
  unfold charLess
  exact decide_eq_true hab

theorem list_getD_last {α : Type _} :
    ∀ (l : List α) (h : l ≠ []) (dflt : α),
      l.getD (l.length - 1) dflt = l.getLast h := by
  intro l
  induction l with
  | nil => intro h; exact absurd rfl h
  | cons a as ih =>
    intro h dflt
    cases as with
    | nil => rfl
    | cons b bs =>
      have hne : (b :: bs) ≠ [] := by simp
      rw [List.getLast_cons hne]
      have hlen : (a :: b :: bs).length - 1 = ((b :: bs).length - 1) + 1 := by simp
      rw [hlen, List.getD_cons_succ]
      exact ih hne dflt

/-- `InsertCharacter` when the insertion point is a found index `j` into
the (sorted) flat character list: the result is defined and its flat
character list is the old one with the new character spliced in at `j`. -/
theorem InsertCharacter_found (lines : List Line) (v : Char)
    (p : List Identifier) (k : Int) (j : Nat) (hne : lines ≠ [])
    (hgac : getAllCharacters ⟨lines⟩ = flattenLines lines)
    (hfind : (flattenLines lines).findIdx?
        (fun ch => decide (comparePositions p ch.Pos < 0)) = some j) :
    ∃ d', InsertCharacter ⟨lines⟩ v p k = .ok d' ∧
      flattenChars d' =
        (flattenLines lines).take j ++ [⟨p, k, v⟩] ++ (flattenLines lines).drop j := by
  have hj : j < (flattenLines lines).length := by
    obtain ⟨hlt, _, _⟩ := List.findIdx?_eq_some_iff_getElem.mp hfind
    exact hlt
  have hfip : findInsertionPoint ⟨lines⟩ p = gLCIGo lines j := by
    unfold findInsertionPoint
    rw [hgac]
    dsimp only
    rw [hfind]
    rfl
  have hlines0 : (if lines.isEmpty = true then [(⟨[]⟩ : Line)] else lines) = lines := by
    cases lines with
    | nil => exact absurd rfl hne
    | cons a as => rfl
  unfold InsertCharacter
  dsimp only
  rw [hlines0, hfip]
  by_cases hv : v = '\n'
  · rw [if_pos hv]
    refine ⟨_, rfl, ?_⟩
    rw [flattenChars_eq]
    exact newline_insert_flatten lines j ⟨p, k, v⟩ hj
  · rw [if_neg hv]
    refine ⟨_, rfl, ?_⟩
    rw [flattenChars_eq]
    exact regular_insert_flatten lines j ⟨p, k, v⟩ hj

/-- `InsertCharacter` when no character is greater than `p`: the new
character lands at the very end of the flat character list. -/
theorem InsertCharacter_end (lines : List Line) (v : Char)
    (p : List Identifier) (k : Int) (hne : lines ≠ [])
    (hgac : getAllCharacters ⟨lines⟩ = flattenLines lines)
    (hfind : (flattenLines lines).findIdx?
        (fun ch => decide (comparePositions p ch.Pos < 0)) = none) :
    ∃ d', InsertCharacter ⟨lines⟩ v p k = .ok d' ∧
      flattenChars d' = flattenLines lines ++ [⟨p, k, v⟩] := by
  have hfip : findInsertionPoint ⟨lines⟩ p =
      (lines.length - 1, (lines.getLast hne).Characters.length) := by
    unfold findInsertionPoint
    rw [hgac]
    dsimp only
    rw [hfind]
    dsimp only
    rw [List.getLast?_eq_getLast lines hne]
  have hgetD : lines.getD (lines.length - 1) default = lines.getLast hne :=
    list_getD_last lines hne default
  have hlines0 : (if lines.isEmpty = true then [(⟨[]⟩ : Line)] else lines) = lines := by
    cases lines with
    | nil => exact absurd rfl hne
    | cons a as => rfl
  unfold InsertCharacter
  dsimp only
  rw [hlines0, hfip]
  dsimp only
  rw [hgetD]
  by_cases hv : v = '\n'
  · rw [if_pos hv]
    refine ⟨_, rfl, ?_⟩
    rw [flattenChars_eq]
    rw [List.take_length, List.drop_length]
    exact newline_end_insert_flatten lines ⟨p, k, v⟩ hne
  · rw [if_neg hv]
    refine ⟨_, rfl, ?_⟩
    rw [flattenChars_eq]
    rw [List.take_length, List.drop_length, List.append_nil]
    exact end_insert_flatten lines ⟨p, k, v⟩ hne

end crdt

/-- Claim C10: `InsertCharacter` never returns an error, for any value,
position and clock; and on a document with strictly sorted positions that
already contains a character `c0` at position `p`, inserting another
character at `p` places the duplicate immediately after `c0` in the flat
character order. -/
theorem claim_C10 (d : crdt.Document) (v : Char) (p : List crdt.Identifier)
    (k : Int) :
    (∃ d', crdt.InsertCharacter d v p k = .ok d') ∧
    (∀ A c0 B, crdt.flattenChars d = A ++ c0 :: B →
      List.Pairwise (fun a b => crdt.comparePositions a.Pos b.Pos < 0)
        (crdt.flattenChars d) →
      c0.Pos = p →
      ∀ d', crdt.InsertCharacter d v p k = .ok d' →
        crdt.flattenChars d' = A ++ c0 :: (⟨p, k, v⟩ : crdt.Character) :: B) := by
  obtain ⟨lines⟩ := d
  constructor
  · unfold crdt.InsertCharacter
    by_cases hv : v = '\n'
    · rw [if_pos hv]
      exact ⟨_, rfl⟩
    · rw [if_neg hv]
      exact ⟨_, rfl⟩
  · intro A c0 B hflat hsort hc0 d' hok
    have hflat' : crdt.flattenLines lines = A ++ c0 :: B := hflat
    have hne : lines ≠ [] := by
      intro hl
      subst hl
      rw [crdt.flattenLines_nil] at hflat'
      simp at hflat' 
    have hgac : crdt.getAllCharacters ⟨lines⟩ = crdt.flattenLines lines :=
      crdt.getAllCharacters_eq_flatten ⟨lines⟩ hsort
    have hp : p = c0.Pos := hc0.symm
    have hsort' : List.Pairwise (fun a b => crdt.comparePositions a.Pos b.Pos < 0)
        (A ++ c0 :: B) := by
      rw [← hflat']
      exact hsort
    rcases List.pairwise_append.mp hsort' with ⟨_, hcB, hAB⟩
    have hpredA : ∀ x ∈ A ++ [c0],
        (fun ch => decide (crdt.comparePositions p ch.Pos < 0)) x = false := by
      intro x hx
      rcases List.mem_append.mp hx with hxA | hxc
      · have hlt := hAB x hxA c0 (List.mem_cons_self c0 B)
        apply decide_eq_false
        rw [hp, crdt.comparePositions_swap]
        omega
      · rw [List.mem_singleton] at hxc
        subst hxc
        apply decide_eq_false
        rw [hp]
        have h0 : crdt.comparePositions x.Pos x.Pos = 0 :=
          (crdt.comparePositions_eq_zero_iff x.Pos x.Pos).mpr rfl
        omega
    cases B with
    | nil =>
      have hfindn : (crdt.flattenLines lines).findIdx?
          (fun ch => decide (crdt.comparePositions p ch.Pos < 0)) = none := by
        rw [hflat']
        rw [List.findIdx?_eq_none_iff]
        exact hpredA
      obtain ⟨d'', hins, hflat''⟩ :=
        crdt.InsertCharacter_end lines v p k hne hgac hfindn
      rw [hins] at hok
      have hdd : d' = d'' := (Except.ok.inj hok).symm
      subst hdd
      rw [hflat'', hflat']
      simp
    | cons b B2 =>
      have hpredb : (fun ch => decide (crdt.comparePositions p ch.Pos < 0)) b = true := by
        apply decide_eq_true
        rw [hp]
        rcases List.pairwise_cons.mp hcB with ⟨hcb, _⟩
        exact hcb b (List.mem_cons_self b B2)
      have hfind : (crdt.flattenLines lines).findIdx?
          (fun ch => decide (crdt.comparePositions p ch.Pos < 0)) = some (A.length + 1) := by
        rw [hflat', List.append_cons A c0 (b :: B2)]
        rw [cursor.findIdx?_append_first _ b hpredb (A ++ [c0]) B2 hpredA 0]
        simp
      obtain ⟨d'', hins, hflat''⟩ :=
        crdt.InsertCharacter_found lines v p k (A.length + 1) hne hgac hfind
      rw [hins] at hok
      have hdd : d' = d'' := (Except.ok.inj hok).symm
      subst hdd
      rw [hflat'', hflat']
      rw [List.append_cons A c0 (b :: B2)]
      rw [List.take_left' (by simp), List.drop_left' (by simp)]
      simp

/-- Witness for claim C10 at a concrete input: inserting a duplicate of
the position of the character b of "ab". -/
theorem claim_C10_witness :
    (∃ d', crdt.InsertCharacter (crdt.FromText "ab".toList 1) 'X' [⟨2, 1⟩] 7 = .ok d') ∧
    ∀ d', crdt.InsertCharacter (crdt.FromText "ab".toList 1) 'X' [⟨2, 1⟩] 7 = .ok d' →
      crdt.flattenChars d' =
        [⟨[⟨1, 1⟩], 1, 'a'⟩] ++ (⟨[⟨2, 1⟩], 2, 'b'⟩ : crdt.Character) ::
          (⟨[⟨2, 1⟩], 7, 'X'⟩ : crdt.Character) :: [] := by
  refine ⟨(claim_C10 (crdt.FromText "ab".toList 1) 'X' [⟨2, 1⟩] 7).1, ?_⟩
  exact (claim_C10 (crdt.FromText "ab".toList 1) 'X' [⟨2, 1⟩] 7).2
    [⟨[⟨1, 1⟩], 1, 'a'⟩] ⟨[⟨2, 1⟩], 2, 'b'⟩ [] (by decide) (by decide) (by decide)

namespace crdt

theorem isCanonLines_cons (l : Line) (ls : List Line) (h : ls ≠ []) :
    IsCanonLines (l :: ls) ↔ InteriorLine l ∧ IsCanonLines ls := by
  cases ls with
  | nil => exact absurd rfl h
  | cons l2 ls2 => exact Iff.rfl

theorem isCanonLines_append (pre : List Line) (ls : List Line) (h : ls ≠ []) :
    IsCanonLines (pre ++ ls) ↔ (∀ l ∈ pre, InteriorLine l) ∧ IsCanonLines ls := by
  induction pre with
  | nil =>
    rw [List.nil_append]
    constructor
    · intro hh
      exact ⟨fun l hl => absurd hl (List.not_mem_nil l), hh⟩
    · rintro ⟨_, hh⟩
      exact hh
  | cons l pres ih =>
    rw [List.cons_append]
    rw [isCanonLines_cons l (pres ++ ls)
      (by intro hh; rcases List.append_eq_nil.mp hh with ⟨_, h2⟩; exact h h2)]
    rw [ih]
    constructor
    · rintro ⟨hl, hpre, hls⟩
      exact ⟨fun x hx => by
        rcases List.mem_cons.mp hx with hx | hx
        · exact hx ▸ hl
        · exact hpre x hx, hls⟩
    · rintro ⟨hall, hls⟩
      exact ⟨hall l (List.mem_cons_self l pres),
        fun x hx => hall x (List.mem_cons_of_mem l hx), hls⟩

theorem lastIsNewline_iff (l : List Character) :
    lastIsNewline l ↔ ∃ m nl, l = m ++ [nl] ∧ nl.Value = '\n' := by
  unfold lastIsNewline
  constructor
  · intro h
    cases hg : l.getLast? with
    | none => rw [hg] at h; simp at h
    | some nl =>
      rw [hg] at h
      simp at h
      obtain ⟨m, hm⟩ := List.getLast?_eq_some_iff.mp hg
      exact ⟨m, nl, hm, h⟩
  · rintro ⟨m, nl, rfl, hnl⟩
    rw [List.getLast?_concat]
    simp [hnl]

theorem nlFree_append (a b : List Character) :
    NlFree (a ++ b) ↔ NlFree a ∧ NlFree b := by
  unfold NlFree
  constructor
  · intro h
    exact ⟨fun c hc => h c (List.mem_append_left b hc),
      fun c hc => h c (List.mem_append_right a hc)⟩
  · rintro ⟨h1, h2⟩ c hc
    rcases List.mem_append.mp hc with hc | hc
    · exact h1 c hc
    · exact h2 c hc

theorem splitLines_ne_nil : ∀ S : List Character, splitLines S ≠ [] := by
  intro S
  cases S with
  | nil => simp [splitLines]
  | cons c rest =>
    unfold splitLines
    cases splitLines rest with
    | nil => exact List.cons_ne_nil [c] []
    | cons l ls =>
      dsimp only
      by_cases hc : c.Value = '\n'
      · rw [if_pos hc]; simp
      · rw [if_neg hc]; simp

/-- Splitting a newline-free list yields one line. -/
theorem splitLines_nlFree (S : List Character) (h : NlFree S) :
    splitLines S = [S] := by
  induction S with
  | nil => rfl
  | cons c rest ih =>
    have hc : c.Value ≠ '\n' := h c (List.mem_cons_self c rest)
    have hrest : NlFree rest := fun x hx => h x (List.mem_cons_of_mem c hx)
    unfold splitLines
    rw [ih hrest]
    dsimp only
    rw [if_neg hc]

/-- Splitting a canonical chunk followed by anything. -/
theorem splitLines_chunk (m : List Character) (nl : Character)
    (rest : List Character) (hm : NlFree m) (hnl : nl.Value = '\n') :
    splitLines (m ++ nl :: rest) = (m ++ [nl]) :: splitLines rest := by
  induction m with
  | nil =>
    simp only [List.nil_append]
    rw [splitLines]
    cases hs : splitLines rest with
    | nil => exact absurd hs (splitLines_ne_nil rest)
    | cons l ls =>
      dsimp only
      rw [if_pos hnl]
  | cons x xs ih =>
    have hx : x.Value ≠ '\n' := hm x (List.mem_cons_self x xs)
    have hxs : NlFree xs := fun c hc => hm c (List.mem_cons_of_mem x hc)
    rw [List.cons_append, splitLines, ih hxs]
    dsimp only
    rw [if_neg hx]
    simp

/-- A canonical list of lines is the canonical splitting of its flat
character list. -/
theorem canon_reconstruct :
    ∀ ls : List Line, IsCanonLines ls →
      ls.map Line.Characters = splitLines (flattenLines ls) := by
  intro ls
  induction ls with
  | nil => intro h; exact absurd h (fun h => h)
  | cons l ls2 ih =>
    intro h
    cases ls2 with
    | nil =>
      have hnf : NlFree l.Characters := h
      rw [flattenLines_cons, flattenLines_nil, List.append_nil]
      rw [splitLines_nlFree l.Characters hnf]
      rfl
    | cons l2 ls3 =>
      rcases h with ⟨⟨hdrop, hlast⟩, hrest⟩
      rcases (lastIsNewline_iff l.Characters).mp hlast with ⟨m, nl, hchars, hnl⟩
      have hm : NlFree m := by
        rw [hchars, List.dropLast_concat] at hdrop
        exact hdrop
      rw [flattenLines_cons, hchars]
      rw [List.append_assoc, List.singleton_append]
      rw [splitLines_chunk m nl (flattenLines (l2 :: ls3)) hm hnl]
      rw [List.map_cons, ← ih hrest, hchars]

/-- Lines are determined by their characters. -/
theorem lines_map_injective :
    ∀ ls1 ls2 : List Line,
      ls1.map Line.Characters = ls2.map Line.Characters → ls1 = ls2 := by
  intro ls1
  induction ls1 with
  | nil =>
    intro ls2 h
    cases ls2 with
    | nil => rfl
    | cons b bs => simp at h
  | cons a as ih =>
    intro ls2 h
    cases ls2 with
    | nil => simp at h
    | cons b bs =>
      simp only [List.map_cons, List.cons.injEq] at h
      rcases h with ⟨h1, h2⟩
      have : a = b := by cases a; cases b; simpa using h1
      rw [this, ih bs h2]

/-- Two documents satisfying the invariant with equal flat character
lists are equal. -/
theorem doc_eq_of_inv_of_flatten_eq (d1 d2 : Document)
    (h1 : DocInv d1) (h2 : DocInv d2)
    (hf : flattenChars d1 = flattenChars d2) : d1 = d2 := by
  obtain ⟨lines1⟩ := d1
  obtain ⟨lines2⟩ := d2
  have e1 := canon_reconstruct lines1 h1.1
  have e2 := canon_reconstruct lines2 h2.1
  have hff : flattenLines lines1 = flattenLines lines2 := hf
  rw [hff] at e1
  have := lines_map_injective lines1 lines2 (e1.trans e2.symm)
  rw [this]

end crdt

namespace crdt

theorem nlFree_of_sub {a b : List Character} (hsub : a ⊆ b) (h : NlFree b) :
    NlFree a := fun c hc => h c (hsub hc)

theorem list_drop_append_succ {α : Type _} :
    ∀ (pre : List α) (x : α) (post : List α),
      (pre ++ x :: post).drop (pre.length + 1) = post := by
  intro pre
  induction pre with
  | nil => intro x post; rfl
  | cons a pres ih =>
    intro x post
    simp only [List.cons_append, List.length_cons]
    show (pres ++ x :: post).drop (pres.length + 1) = post
    exact ih x post

/-- `gLCIGo` at an in-range flat index lands strictly inside a line. -/
theorem gLCIGo_decomp :
    ∀ (lines : List Line) (j : Nat), j < (flattenLines lines).length →
      ∃ pre l post, lines = pre ++ l :: post ∧ (gLCIGo lines j).1 = pre.length ∧
        (gLCIGo lines j).2 < l.Characters.length := by
  intro lines
  induction lines with
  | nil => intro j hj; simp [flattenLines] at hj
  | cons l ls ih =>
    intro j hj
    cases ls with
    | nil =>
      have hj' : j < l.Characters.length := by simpa [flattenLines] using hj
      refine ⟨[], l, [], rfl, ?_, ?_⟩
      · rw [show gLCIGo [l] j = (0, j) from by unfold gLCIGo; rw [if_pos hj']]
        rfl
      · rw [show gLCIGo [l] j = (0, j) from by unfold gLCIGo; rw [if_pos hj']]
        exact hj'
    | cons l2 ls2 =>
      by_cases hjl : j < l.Characters.length
      · refine ⟨[], l, l2 :: ls2, rfl, ?_, ?_⟩
        · rw [show gLCIGo (l :: l2 :: ls2) j = (0, j) from by
            unfold gLCIGo; rw [if_pos hjl]]
          rfl
        · rw [show gLCIGo (l :: l2 :: ls2) j = (0, j) from by
            unfold gLCIGo; rw [if_pos hjl]]
          exact hjl
      · have hq : gLCIGo (l :: l2 :: ls2) j =
            ((gLCIGo (l2 :: ls2) (j - l.Characters.length)).1 + 1,
             (gLCIGo (l2 :: ls2) (j - l.Characters.length)).2) := by
          rw [show gLCIGo (l :: l2 :: ls2) j =
            (if j < l.Characters.length then ((0 : Nat), j)
             else ((gLCIGo (l2 :: ls2) (j - l.Characters.length)).1 + 1,
                   (gLCIGo (l2 :: ls2) (j - l.Characters.length)).2)) from rfl]
          rw [if_neg hjl]
        have hj2 : j - l.Characters.length < (flattenLines (l2 :: ls2)).length := by
          rw [flattenLines_cons] at hj
          simp only [List.length_append] at hj
          omega
        obtain ⟨pre, lx, post, hdec, h1, h2⟩ := ih (j - l.Characters.length) hj2
        refine ⟨l :: pre, lx, post, by rw [hdec]; rfl, ?_, ?_⟩
        · rw [hq]
          simp [h1]
        · rw [hq]
          exact h2

/-- Splicing a non-newline character into a newline-free list keeps it
newline-free. -/
theorem nlFree_insert_regular (chars : List Character) (j : Nat)
    (c : Character) (hc : c.Value ≠ '\n') (h : NlFree chars) :
    NlFree (chars.take j ++ [c] ++ chars.drop j) := by
  intro x hx
  rcases List.mem_append.mp hx with hx | hx
  · rcases List.mem_append.mp hx with hx | hx
    · exact h x (List.take_subset j chars hx)
    · rw [List.mem_singleton] at hx
      rw [hx]; exact hc
  · exact h x (List.drop_subset j chars hx)

/-- Splicing a non-newline character strictly inside an interior line
keeps it interior. -/
theorem interior_insert_regular (chars : List Character) (j : Nat)
    (c : Character) (hj : j < chars.length) (hc : c.Value ≠ '\n')
    (h : InteriorLine ⟨chars⟩) :
    InteriorLine ⟨chars.take j ++ [c] ++ chars.drop j⟩ := by
  rcases h with ⟨hdrop, hlast⟩
  rcases (lastIsNewline_iff chars).mp hlast with ⟨m, nl, hm, hnl⟩
  have hmfree : NlFree m := by
    rw [hm, List.dropLast_concat] at hdrop
    exact hdrop
  have hjm : j ≤ m.length := by
    rw [hm] at hj
    simp at hj
    omega
  have htake : chars.take j = m.take j := by
    rw [hm, List.take_append_of_le_length hjm]
  have hdropj : chars.drop j = m.drop j ++ [nl] := by
    rw [hm, List.drop_append_of_le_length hjm]
  refine ⟨?_, ?_⟩
  · show NlFree (List.dropLast _)
    rw [htake, hdropj, ← List.append_assoc, List.dropLast_concat]
    intro x hx
    rcases List.mem_append.mp hx with hx | hx
    · rcases List.mem_append.mp hx with hx | hx
      · exact hmfree x (List.take_subset j m hx)
      · rw [List.mem_singleton] at hx
        rw [hx]; exact hc
    · exact hmfree x (List.drop_subset j m hx)
  · show lastIsNewline _
    rw [lastIsNewline_iff]
    refine ⟨chars.take j ++ [c] ++ m.drop j, nl, ?_, hnl⟩
    rw [hdropj, ← List.append_assoc]

/-- The prefix of an interior line up to a strictly interior index is
newline-free. -/
theorem nlFree_take_of_interior (chars : List Character) (j : Nat)
    (hj : j < chars.length) (h : InteriorLine ⟨chars⟩) :
    NlFree (chars.take j) := by
  rcases h with ⟨hdrop, hlast⟩
  rcases (lastIsNewline_iff chars).mp hlast with ⟨m, nl, hm, _⟩
  have hmfree : NlFree m := by
    rw [hm, List.dropLast_concat] at hdrop
    exact hdrop
  have hjm : j ≤ m.length := by
    rw [hm] at hj
    simp at hj
    omega
  rw [hm, List.take_append_of_le_length hjm]
  exact nlFree_of_sub (List.take_subset j m) hmfree

/-- Dropping a strictly interior prefix of an interior line keeps it
interior. -/
theorem interior_drop (chars : List Character) (j : Nat)
    (hj : j < chars.length) (h : InteriorLine ⟨chars⟩) :
    InteriorLine ⟨chars.drop j⟩ := by
  rcases h with ⟨hdrop, hlast⟩
  rcases (lastIsNewline_iff chars).mp hlast with ⟨m, nl, hm, hnl⟩
  have hmfree : NlFree m := by
    rw [hm, List.dropLast_concat] at hdrop
    exact hdrop
  have hjm : j ≤ m.length := by
    rw [hm] at hj
    simp at hj
    omega
  have hdropj : chars.drop j = m.drop j ++ [nl] := by
    rw [hm, List.drop_append_of_le_length hjm]
  refine ⟨?_, ?_⟩
  · show NlFree (List.dropLast _)
    rw [hdropj, List.dropLast_concat]
    exact nlFree_of_sub (List.drop_subset j m) hmfree
  · show lastIsNewline _
    rw [lastIsNewline_iff]
    exact ⟨m.drop j, nl, hdropj, hnl⟩

end crdt

namespace crdt

theorem list_set_last {α : Type _} :
    ∀ (l : List α), l ≠ [] → ∀ x : α,
      l.set (l.length - 1) x = l.dropLast ++ [x] := by
  intro l
  induction l with
  | nil => intro h; exact absurd rfl h
  | cons a as ih =>
    intro _ x
    cases as with
    | nil => rfl
    | cons b bs =>
      have h1 : (a :: b :: bs).length - 1 = ((b :: bs).length - 1) + 1 := by simp
      rw [h1, List.set_cons_succ]
      rw [ih (by simp) x]
      rfl

/-- `InsertCharacter` at a found insertion index preserves the canonical
line structure. -/
theorem InsertCharacter_found_canon (lines : List Line) (v : Char)
    (p : List Identifier) (k : Int) (j : Nat) (hne : lines ≠ [])
    (hgac : getAllCharacters ⟨lines⟩ = flattenLines lines)
    (hcanon : IsCanonLines lines)
    (hfind : (flattenLines lines).findIdx?
        (fun ch => decide (comparePositions p ch.Pos < 0)) = some j) :
    ∃ d', InsertCharacter ⟨lines⟩ v p k = .ok d' ∧ IsCanonLines d'.Lines := by
  have hj : j < (flattenLines lines).length := by
    obtain ⟨hlt, _, _⟩ := List.findIdx?_eq_some_iff_getElem.mp hfind
    exact hlt
  obtain ⟨pre, l, post, hdec, hi1, hi2⟩ := gLCIGo_decomp lines j hj
  subst hdec
  have hfip : findInsertionPoint ⟨pre ++ l :: post⟩ p = gLCIGo (pre ++ l :: post) j := by
    unfold findInsertionPoint
    rw [hgac]
    dsimp only
    rw [hfind]
    rfl
  have hlines0 : (if (pre ++ l :: post).isEmpty = true then [(⟨[]⟩ : Line)]
      else pre ++ l :: post) = pre ++ l :: post := by
    cases pre with
    | nil => rfl
    | cons a as => rfl
  have hcanon' : (∀ x ∈ pre, InteriorLine x) ∧ IsCanonLines (l :: post) :=
    (isCanonLines_append pre (l :: post) (by simp)).mp hcanon
  have hgetD : (pre ++ l :: post).getD (gLCIGo (pre ++ l :: post) j).1 default = l := by
    rw [hi1]
    exact list_getD_append pre l post default
  unfold InsertCharacter
  dsimp only
  rw [hlines0, hfip]
  by_cases hv : v = '\n'
  · rw [if_pos hv]
    refine ⟨_, rfl, ?_⟩
    dsimp only
    rw [hgetD, hi1, list_set_append, list_take_append_succ, list_drop_append_succ]
    rw [List.append_assoc]
    refine (isCanonLines_append
      (pre ++ [⟨l.Characters.take (gLCIGo (pre ++ l :: post) j).2 ++ [⟨p, k, v⟩]⟩])
      ((⟨l.Characters.drop (gLCIGo (pre ++ l :: post) j).2⟩ : Line) :: post)
      (by simp)).mpr ⟨?_, ?_⟩
    · intro x hx
      rcases List.mem_append.mp hx with hx | hx
      · exact hcanon'.1 x hx
      · rw [List.mem_singleton] at hx
        subst hx
        refine ⟨?_, ?_⟩
        · show NlFree (List.dropLast _)
          rw [List.dropLast_concat]
          cases post with
          | nil =>
            exact nlFree_of_sub (List.take_subset _ _) hcanon'.2
          | cons p0 ps =>
            exact nlFree_take_of_interior l.Characters _ hi2
              ((isCanonLines_cons l (p0 :: ps) (by simp)).mp hcanon'.2).1
        · show lastIsNewline _
          rw [lastIsNewline_iff]
          exact ⟨l.Characters.take (gLCIGo (pre ++ l :: post) j).2, ⟨p, k, v⟩, rfl, hv⟩
    · cases post with
      | nil =>
        show NlFree _
        exact nlFree_of_sub (List.drop_subset _ _) hcanon'.2
      | cons p0 ps =>
        rcases (isCanonLines_cons l (p0 :: ps) (by simp)).mp hcanon'.2 with ⟨hint, hrest⟩
        exact (isCanonLines_cons _ _ (by simp)).mpr
          ⟨interior_drop l.Characters _ hi2 hint, hrest⟩
  · rw [if_neg hv]
    refine ⟨_, rfl, ?_⟩
    dsimp only
    rw [hgetD, hi1, list_set_append]
    refine (isCanonLines_append pre _ (by simp)).mpr ⟨hcanon'.1, ?_⟩
    cases post with
    | nil =>
      show NlFree _
      exact nlFree_insert_regular l.Characters _ ⟨p, k, v⟩ hv hcanon'.2
    | cons p0 ps =>
      rcases (isCanonLines_cons l (p0 :: ps) (by simp)).mp hcanon'.2 with ⟨hint, hrest⟩
      exact (isCanonLines_cons _ _ (by simp)).mpr
        ⟨interior_insert_regular l.Characters _ ⟨p, k, v⟩ hi2 hv hint, hrest⟩

end crdt

namespace crdt

/-- `InsertCharacter` past the last character preserves the canonical
line structure. -/
theorem InsertCharacter_end_canon (lines : List Line) (v : Char)
    (p : List Identifier) (k : Int) (hne : lines ≠ [])
    (hgac : getAllCharacters ⟨lines⟩ = flattenLines lines)
    (hcanon : IsCanonLines lines)
    (hfind : (flattenLines lines).findIdx?
        (fun ch => decide (comparePositions p ch.Pos < 0)) = none) :
    ∃ d', InsertCharacter ⟨lines⟩ v p k = .ok d' ∧ IsCanonLines d'.Lines := by
  have hfip : findInsertionPoint ⟨lines⟩ p =
      (lines.length - 1, (lines.getLast hne).Characters.length) := by
    unfold findInsertionPoint
    rw [hgac]
    dsimp only
    rw [hfind]
    dsimp only
    rw [List.getLast?_eq_getLast lines hne]
  have hgetD : lines.getD (lines.length - 1) default = lines.getLast hne :=
    list_getD_last lines hne default
  have hlines0 : (if lines.isEmpty = true then [(⟨[]⟩ : Line)] else lines) = lines := by
    cases lines with
    | nil => exact absurd rfl hne
    | cons a as => rfl
  have hcanon' : (∀ x ∈ lines.dropLast, InteriorLine x) ∧
      NlFree (lines.getLast hne).Characters := by
    have hd : lines = lines.dropLast ++ [lines.getLast hne] :=
      (List.dropLast_append_getLast hne).symm
    rw [hd] at hcanon
    exact (isCanonLines_append lines.dropLast [lines.getLast hne] (by simp)).mp hcanon
  unfold InsertCharacter
  dsimp only
  rw [hlines0, hfip]
  by_cases hv : v = '\n'
  · rw [if_pos hv]
    refine ⟨_, rfl, ?_⟩
    dsimp only
    rw [hgetD, List.take_length, List.drop_length, list_set_last lines hne]
    rw [show (lines.length - 1) + 1 = lines.dropLast.length + 1 from by
      rw [List.length_dropLast]]
    rw [list_take_append_succ, list_drop_append_succ, List.append_nil,
      List.append_assoc]
    refine (isCanonLines_append lines.dropLast _ (by simp)).mpr ⟨hcanon'.1, ?_⟩
    refine ⟨⟨?_, ?_⟩, ?_⟩
    · show NlFree (List.dropLast _)
      rw [List.dropLast_concat]
      exact hcanon'.2
    · show lastIsNewline _
      rw [lastIsNewline_iff]
      exact ⟨(lines.getLast hne).Characters, ⟨p, k, v⟩, rfl, hv⟩
    · show NlFree _
      intro c hc
      exact absurd hc (List.not_mem_nil c)
  · rw [if_neg hv]
    refine ⟨_, rfl, ?_⟩
    dsimp only
    rw [hgetD, list_set_last lines hne]
    refine (isCanonLines_append lines.dropLast _ (by simp)).mpr ⟨hcanon'.1, ?_⟩
    show NlFree _
    exact nlFree_insert_regular _ _ _ hv hcanon'.2

end crdt

namespace crdt

/-- `DeleteCharacter` of a found character preserves the canonical line
structure. -/
theorem DeleteCharacter_canon
    (d : Document) (p : List Identifier) (pre : List Line) (l : Line)
    (post : List Line) (cpre : List Character) (c : Character)
    (cpost : List Character)
    (hfind : findCharacter d p = some (pre.length, cpre.length))
    (hlines : d.Lines = pre ++ l :: post)
    (hchars : l.Characters = cpre ++ c :: cpost)
    (hcanon : IsCanonLines d.Lines) :
    ∃ d', DeleteCharacter d p = .ok d' ∧ IsCanonLines d'.Lines := by
  have hgetL : d.Lines.getD pre.length default = l := by
    rw [hlines]; exact list_getD_append pre l post default
  have hgetC : l.Characters.getD cpre.length default = c := by
    rw [hchars]; exact list_getD_append cpre c cpost default
  have htake : l.Characters.take cpre.length = cpre := by
    rw [hchars]; exact List.take_left' rfl
  have hdrop : l.Characters.drop (cpre.length + 1) = cpost := by
    rw [hchars, List.append_cons cpre c cpost]
    exact List.drop_left' (by simp)
  have hlen : d.Lines.length = pre.length + 1 + post.length := by
    rw [hlines]; simp; omega
  have hcanon' : (∀ x ∈ pre, InteriorLine x) ∧ IsCanonLines (l :: post) := by
    rw [hlines] at hcanon
    exact (isCanonLines_append pre (l :: post) (by simp)).mp hcanon
  unfold DeleteCharacter
  rw [hfind]
  dsimp only
  rw [hgetL, hgetC, htake, hdrop]
  by_cases hval : c.Value = '\n'
  · rw [if_pos hval]
    have hpostne : post ≠ [] := by
      intro hp
      subst hp
      have hnl : NlFree l.Characters := hcanon'.2
      have hcm : c ∈ l.Characters := by
        rw [hchars]
        exact List.mem_append_right cpre (List.mem_cons_self c cpost)
      exact hnl c hcm hval
    cases post with
    | nil => exact absurd rfl hpostne
    | cons next post2 =>
      have hsucc : pre.length + 1 < d.Lines.length := by
        rw [hlen]
        simp only [List.length_cons]
        omega
      rw [if_pos hsucc]
      have hgetN : d.Lines.getD (pre.length + 1) default = next := by
        rw [hlines, List.append_cons pre l (next :: post2)]
        have hl1 : (pre ++ [l]).length = pre.length + 1 := by simp
        rw [← hl1]
        exact list_getD_append (pre ++ [l]) next post2 default
      rw [hgetN, hlines, list_set_append, list_take_append_succ,
        list_drop_append_two]
      refine ⟨_, rfl, ?_⟩
      rcases (isCanonLines_cons l (next :: post2) (by simp)).mp hcanon'.2 with
        ⟨hlint, hrestc⟩
      rcases hlint with ⟨hldrop, hllast⟩
      rcases (lastIsNewline_iff l.Characters).mp hllast with ⟨m, nl, hm, hnlv⟩
      have hmfree : NlFree m := by
        rw [hm, List.dropLast_concat] at hldrop
        exact hldrop
      have hcpost : cpost = [] := by
        rcases List.eq_nil_or_concat cpost with hc0 | ⟨cp, x, hcx⟩
        · exact hc0
        · exfalso
          rw [List.concat_eq_append] at hcx
          rw [hcx] at hchars
          have hchars2 : (cpre ++ c :: cp) ++ [x] = m ++ [nl] := by
            rw [← hm, hchars]
            simp [List.append_assoc]
          have hlencc : (cpre ++ c :: cp).length = m.length := by
            have h5 := congrArg List.length hchars2
            simp at h5 ⊢
            omega
          rcases List.append_inj hchars2 hlencc with ⟨hccm, _⟩
          apply hmfree c
          · rw [← hccm]
            exact List.mem_append_right cpre (List.mem_cons_self c cp)
          · exact hval
      subst hcpost
      have hchars' : cpre ++ [c] = m ++ [nl] := by rw [← hchars, hm]
      have hlencm : cpre.length = m.length := by
        have := congrArg List.length hchars'
        simp at this
        omega
      rcases List.append_inj hchars' hlencm with ⟨hcprem, _⟩
      rw [List.append_nil, List.append_assoc, List.singleton_append]
      refine (isCanonLines_append pre _ (by simp)).mpr ⟨hcanon'.1, ?_⟩
      cases post2 with
      | nil =>
        show NlFree _
        refine (nlFree_append cpre next.Characters).mpr ⟨?_, ?_⟩
        · rw [hcprem]; exact hmfree
        · exact hrestc
      | cons q qs =>
        rcases (isCanonLines_cons next (q :: qs) (by simp)).mp hrestc with
          ⟨hnint, hqrest⟩
        rcases hnint with ⟨hndrop, hnlast⟩
        rcases (lastIsNewline_iff next.Characters).mp hnlast with
          ⟨m2, nl2, hm2, hnl2v⟩
        have hm2free : NlFree m2 := by
          rw [hm2, List.dropLast_concat] at hndrop
          exact hndrop
        refine (isCanonLines_cons _ _ (by simp)).mpr ⟨⟨?_, ?_⟩, hqrest⟩
        · show NlFree (List.dropLast _)
          rw [hm2, ← List.append_assoc, List.dropLast_concat]
          refine (nlFree_append cpre m2).mpr ⟨?_, hm2free⟩
          rw [hcprem]; exact hmfree
        · show lastIsNewline _
          rw [lastIsNewline_iff]
          exact ⟨cpre ++ m2, nl2, by rw [hm2, ← List.append_assoc], hnl2v⟩
  · rw [if_neg hval]
    rw [hlines, list_set_append]
    refine ⟨_, rfl, ?_⟩
    refine (isCanonLines_append pre _ (by simp)).mpr ⟨hcanon'.1, ?_⟩
    cases post with
    | nil =>
      show NlFree _
      intro x hx
      refine hcanon'.2 x ?_
      rw [hchars]
      rcases List.mem_append.mp hx with hx | hx
      · exact List.mem_append_left _ hx
      · exact List.mem_append_right _ (List.mem_cons_of_mem c hx)
    | cons q qs =>
      rcases (isCanonLines_cons l (q :: qs) (by simp)).mp hcanon'.2 with
        ⟨hlint, hrestc⟩
      rcases hlint with ⟨hldrop, hllast⟩
      rcases (lastIsNewline_iff l.Characters).mp hllast with ⟨m, nl, hm, hnlv⟩
      have hmfree : NlFree m := by
        rw [hm, List.dropLast_concat] at hldrop
        exact hldrop
      have hcpostne : cpost ≠ [] := by
        intro hc0
        subst hc0
        have hchars' : cpre ++ [c] = m ++ [nl] := by rw [← hchars, hm]
        have hlencm : cpre.length = m.length := by
          have := congrArg List.length hchars'
          simp at this
          omega
        rcases List.append_inj hchars' hlencm with ⟨_, hcnl⟩
        have : c = nl := by simpa using hcnl
        rw [this] at hval
        exact hval hnlv
      rcases List.eq_nil_or_concat cpost with hc0 | ⟨cp, x, hcx⟩
      · exact absurd hc0 hcpostne
      · rw [List.concat_eq_append] at hcx
        subst hcx
        have hre : cpre ++ c :: (cp ++ [x]) = (cpre ++ c :: cp) ++ [x] := by
          simp [List.append_assoc]
        have hchars' : (cpre ++ c :: cp) ++ [x] = m ++ [nl] := by
          rw [← hre, ← hchars, hm]
        have hlencc : (cpre ++ c :: cp).length = m.length := by
          have h5 := congrArg List.length hchars'
          simp at h5 ⊢
          omega
        rcases List.append_inj hchars' hlencc with ⟨hccm, hxnl⟩
        have hxv : x = nl := by simpa using hxnl
        refine (isCanonLines_cons _ _ (by simp)).mpr ⟨⟨?_, ?_⟩, hrestc⟩
        · show NlFree (List.dropLast _)
          rw [← List.append_assoc, List.dropLast_concat]
          intro y hy
          apply hmfree y
          rw [← hccm]
          rcases List.mem_append.mp hy with hy | hy
          · exact List.mem_append_left _ hy
          · exact List.mem_append_right _ (List.mem_cons_of_mem c hy)
        · show lastIsNewline _
          rw [lastIsNewline_iff]
          refine ⟨cpre ++ cp, x, by rw [← List.append_assoc], ?_⟩
          rw [hxv]; exact hnlv

end crdt

namespace crdt

theorem mem_take_imp {α : Type _} (P : α → Prop) :
    ∀ (l : List α) (j : Nat),
      (∀ (i : Nat) (h : i < l.length), i < j → P (l.get ⟨i, h⟩)) →
      ∀ x ∈ l.take j, P x := by
  intro l
  induction l with
  | nil => intro j _ x hx; simp at hx
  | cons a as ih =>
    intro j h x hx
    cases j with
    | zero => simp at hx
    | succ j2 =>
      rw [List.take_succ_cons] at hx
      rcases List.mem_cons.mp hx with hx | hx
      · subst hx
        exact h 0 (by simp) (by omega)
      · exact ih j2 (fun i hi hij => h (i + 1) (by simpa using hi) (by omega)) x hx

/-- Ordered insertion splices before a suffix whose head is greater,
after a prefix of not-greater characters. -/
theorem sInsertChar_eq_splice :
    ∀ (pre post : List Character) (c : Character),
      (∀ x ∈ pre, ¬ comparePositions c.Pos x.Pos < 0) →
      (∀ h : post ≠ [], comparePositions c.Pos (post.head h).Pos < 0) →
      sInsertChar c (pre ++ post) = pre ++ c :: post := by
  intro pre
  induction pre with
  | nil =>
    intro post c _ hhead
    cases post with
    | nil => rfl
    | cons p ps =>
      show (if comparePositions c.Pos p.Pos < 0 then c :: p :: ps
        else p :: sInsertChar c ps) = c :: p :: ps
      have hh := hhead (by simp)
      rw [List.head_cons] at hh
      rw [if_pos hh]
  | cons a pre2 ih =>
    intro post c hpre hhead
    show (if comparePositions c.Pos a.Pos < 0 then c :: a :: (pre2 ++ post)
      else a :: sInsertChar c (pre2 ++ post)) = a :: (pre2 ++ c :: post)
    rw [if_neg (hpre a (List.mem_cons_self a pre2))]
    rw [ih post c (fun x hx => hpre x (List.mem_cons_of_mem a hx)) hhead]

/-- When the scan finds a strictly greater character at index `j`, the
ordered insertion is the splice at `j`. -/
theorem sInsertChar_splice_found (S : List Character) (c : Character) (j : Nat)
    (h : S.findIdx? (fun x => decide (comparePositions c.Pos x.Pos < 0)) = some j) :
    sInsertChar c S = S.take j ++ c :: S.drop j := by
  obtain ⟨hj, hpred, hprev⟩ := List.findIdx?_eq_some_iff_getElem.mp h
  have hS : sInsertChar c (S.take j ++ S.drop j) = S.take j ++ c :: S.drop j := by
    refine sInsertChar_eq_splice (S.take j) (S.drop j) c ?_ ?_
    · refine mem_take_imp _ S j ?_
      intro i hi hij hlt
      exact hprev i hij (decide_eq_true hlt)
    · intro hne
      rw [List.head_drop]
      exact of_decide_eq_true hpred
  rw [List.take_append_drop] at hS
  exact hS

/-- When no character is strictly greater, the ordered insertion appends
at the end. -/
theorem sInsertChar_append_end (S : List Character) (c : Character)
    (h : S.findIdx? (fun x => decide (comparePositions c.Pos x.Pos < 0)) = none) :
    sInsertChar c S = S ++ [c] := by
  have hall := List.findIdx?_eq_none_iff.mp h
  have hs := sInsertChar_eq_splice S [] c ?_ ?_
  · rw [List.append_nil] at hs
    exact hs
  · intro x hx
    exact of_decide_eq_false (hall x hx)
  · intro hne
    exact absurd rfl hne

/-- Ordered insertion is a permutation of consing. -/
theorem sInsertChar_perm (c : Character) :
    ∀ S : List Character, (sInsertChar c S).Perm (c :: S) := by
  intro S
  induction S with
  | nil => exact List.Perm.refl _
  | cons x xs ih =>
    by_cases hx : comparePositions c.Pos x.Pos < 0
    · rw [show sInsertChar c (x :: xs) = c :: x :: xs from by
        show (if comparePositions c.Pos x.Pos < 0 then _ else _) = _
        rw [if_pos hx]]
    · rw [show sInsertChar c (x :: xs) = x :: sInsertChar c xs from by
        show (if comparePositions c.Pos x.Pos < 0 then _ else _) = _
        rw [if_neg hx]]
      exact (ih.cons x).trans (List.Perm.swap c x xs)

theorem mem_sInsertChar (c : Character) (S : List Character) (a : Character) :
    a ∈ sInsertChar c S ↔ a = c ∨ a ∈ S := by
  rw [(sInsertChar_perm c S).mem_iff]
  exact List.mem_cons

/-- Ordered insertion of a fresh position preserves strict sortedness. -/
theorem sInsertChar_pairwise (c : Character) :
    ∀ S : List Character,
      List.Pairwise (fun a b => comparePositions a.Pos b.Pos < 0) S →
      (∀ x ∈ S, comparePositions c.Pos x.Pos ≠ 0) →
      List.Pairwise (fun a b => comparePositions a.Pos b.Pos < 0) (sInsertChar c S) := by
  intro S
  induction S with
  | nil => intro _ _; simp [sInsertChar]
  | cons x xs ih =>
    intro hsort hne
    rcases List.pairwise_cons.mp hsort with ⟨hxall, hxs⟩
    by_cases hx : comparePositions c.Pos x.Pos < 0
    · rw [show sInsertChar c (x :: xs) = c :: x :: xs from by
        show (if comparePositions c.Pos x.Pos < 0 then _ else _) = _
        rw [if_pos hx]]
      refine List.pairwise_cons.mpr ⟨?_, hsort⟩
      intro b hb
      rcases List.mem_cons.mp hb with hb | hb
      · rw [hb]; exact hx
      · exact comparePositions_trans_lt _ _ _ hx (hxall b hb)
    · rw [show sInsertChar c (x :: xs) = x :: sInsertChar c xs from by
        show (if comparePositions c.Pos x.Pos < 0 then _ else _) = _
        rw [if_neg hx]]
      refine List.pairwise_cons.mpr ⟨?_, ?_⟩
      · intro b hb
        rcases (mem_sInsertChar c xs b).mp hb with hb | hb
        · subst hb
          have h0 : comparePositions b.Pos x.Pos ≠ 0 := hne x (List.mem_cons_self x xs)
          have hswap := comparePositions_swap b.Pos x.Pos
          omega
        · exact hxall b hb
      · exact ih hxs (fun y hy => hne y (List.mem_cons_of_mem x hy))

end crdt

namespace crdt

theorem insertLookup_cons_insert (q : List Identifier) (v : Char) (k : Int)
    (rest : List Op) (r : List Identifier) :
    insertLookup (.insert q v k :: rest) r =
      if q = r then some ⟨q, k, v⟩ else insertLookup rest r := by
  unfold insertLookup
  rw [List.findSome?_cons]
  by_cases hq : q = r
  · dsimp only
    rw [if_pos hq, if_pos hq]
  · dsimp only
    rw [if_neg hq, if_neg hq]

theorem insertLookup_cons_delete (q : List Identifier) (rest : List Op)
    (r : List Identifier) :
    insertLookup (.delete q :: rest) r = insertLookup rest r := by
  unfold insertLookup
  rw [List.findSome?_cons]

theorem delCount_cons_insert (q : List Identifier) (v : Char) (k : Int)
    (rest : List Op) (r : List Identifier) :
    delCount (.insert q v k :: rest) r = delCount rest r := by
  unfold delCount
  rw [List.countP_cons]
  simp

theorem delCount_cons_delete (q : List Identifier) (rest : List Op)
    (r : List Identifier) :
    delCount (.delete q :: rest) r = delCount rest r + (if q = r then 1 else 0) := by
  unfold delCount
  rw [List.countP_cons]
  by_cases hq : q = r
  · simp [hq]
  · simp [hq]

theorem insertPositionsOf_cons_insert (q : List Identifier) (v : Char) (k : Int)
    (rest : List Op) :
    insertPositionsOf (.insert q v k :: rest) = q :: insertPositionsOf rest := by
  unfold insertPositionsOf
  rw [List.filterMap_cons]

theorem insertPositionsOf_cons_delete (q : List Identifier) (rest : List Op) :
    insertPositionsOf (.delete q :: rest) = insertPositionsOf rest := by
  unfold insertPositionsOf
  rw [List.filterMap_cons]

theorem insertLookup_eq_none (r : List Identifier) :
    ∀ ops : List Op, r ∉ insertPositionsOf ops → insertLookup ops r = none := by
  intro ops
  induction ops with
  | nil => intro _; rfl
  | cons op rest ih =>
    intro h
    cases op with
    | insert q v k =>
      rw [insertLookup_cons_insert]
      rw [insertPositionsOf_cons_insert] at h
      have hq : ¬ q = r := by
        intro hq
        exact h (hq ▸ List.mem_cons_self q _)
      rw [if_neg hq]
      exact ih (fun hm => h (List.mem_cons_of_mem q hm))
    | delete q =>
      rw [insertLookup_cons_delete]
      rw [insertPositionsOf_cons_delete] at h
      exact ih h

theorem mem_insertPositionsOf :
    ∀ (ops : List Op) (q : List Identifier) (v : Char) (k : Int),
      Op.insert q v k ∈ ops → q ∈ insertPositionsOf ops := by
  intro ops
  induction ops with
  | nil => intro q v k h; exact absurd h (List.not_mem_nil _)
  | cons op rest ih =>
    intro q v k h
    rcases List.mem_cons.mp h with he | hm
    · rw [← he, insertPositionsOf_cons_insert]
      exact List.mem_cons_self q _
    · cases op with
      | insert q2 v2 k2 =>
        rw [insertPositionsOf_cons_insert]
        exact List.mem_cons_of_mem _ (ih q v k hm)
      | delete q2 =>
        rw [insertPositionsOf_cons_delete]
        exact ih q v k hm

/-- With pairwise distinct insert positions, `insertLookup` is exactly
membership of an insert at that position. -/
theorem insertLookup_some_iff (r : List Identifier) :
    ∀ ops : List Op, List.Pairwise (fun a b => a ≠ b) (insertPositionsOf ops) →
      ∀ c : Character, (insertLookup ops r = some c ↔
        ∃ v k, Op.insert r v k ∈ ops ∧ c = ⟨r, k, v⟩) := by
  intro ops
  induction ops with
  | nil =>
    intro _ c
    constructor
    · intro h; exact absurd h (by simp [insertLookup])
    · rintro ⟨v, k, hm, _⟩; exact absurd hm (List.not_mem_nil _)
  | cons op rest ih =>
    intro hpw c
    cases op with
    | insert q v0 k0 =>
      rw [insertLookup_cons_insert]
      rw [insertPositionsOf_cons_insert] at hpw
      rcases List.pairwise_cons.mp hpw with ⟨hqnot, hrest⟩
      by_cases hq : q = r
      · subst hq
        rw [if_pos rfl]
        constructor
        · intro h
          exact ⟨v0, k0, List.mem_cons_self _ _, (Option.some.inj h).symm⟩
        · rintro ⟨v, k, hm, hc⟩
          rcases List.mem_cons.mp hm with hm | hm
          · injection hm with h1 h2 h3
            subst h2
            subst h3
            rw [hc]
          · exact absurd rfl (hqnot q (mem_insertPositionsOf rest q v k hm))
      · rw [if_neg hq]
        rw [ih hrest c]
        constructor
        · rintro ⟨v, k, hm, hc⟩
          exact ⟨v, k, List.mem_cons_of_mem _ hm, hc⟩
        · rintro ⟨v, k, hm, hc⟩
          rcases List.mem_cons.mp hm with hm | hm
          · exfalso
            injection hm with h1 h2 h3
            exact hq h1.symm
          · exact ⟨v, k, hm, hc⟩
    | delete q =>
      rw [insertLookup_cons_delete]
      rw [insertPositionsOf_cons_delete] at hpw
      rw [ih hpw c]
      constructor
      · rintro ⟨v, k, hm, hc⟩
        exact ⟨v, k, List.mem_cons_of_mem _ hm, hc⟩
      · rintro ⟨v, k, hm, hc⟩
        rcases List.mem_cons.mp hm with hm | hm
        · exact Op.noConfusion hm
        · exact ⟨v, k, hm, hc⟩

/-- The converse of the line-major scan: a `none` result means no
character compares equal. -/
theorem findCharacterLines_none_inv :
    ∀ (lines : List Line) (p : List Identifier),
      findCharacterLines lines p = none →
      ∀ l ∈ lines, ∀ ch ∈ l.Characters, comparePositions p ch.Pos ≠ 0 := by
  intro lines p
  induction lines with
  | nil => intro _ l hl; exact absurd hl (List.not_mem_nil l)
  | cons l0 ls ih =>
    intro h l hl ch hch
    unfold findCharacterLines at h
    cases hfi : l0.Characters.findIdx?
        (fun ch => decide (comparePositions p ch.Pos = 0)) with
    | some ci => rw [hfi] at h; exact absurd h (by simp)
    | none =>
      rw [hfi] at h
      cases hr : findCharacterLines ls p with
      | some q2 => rw [hr] at h; simp at h
      | none =>
        rcases List.mem_cons.mp hl with hl | hl
        · subst hl
          intro hc
          have hd := List.findIdx?_eq_none_iff.mp hfi ch hch
          rw [decide_eq_true hc] at hd
          exact absurd hd (by simp)
        · exact ih hr l hl ch hch

end crdt

namespace crdt

/-- One valid operation on an invariant-satisfying document preserves the
invariant, and its effect on the flat character list is `applyOpL`. -/
theorem applyOp_sim (d : Document) (op : Op)
    (hinv : DocInv d)
    (hvalid : match op with
      | .insert p _ _ => ∀ c ∈ flattenChars d, comparePositions p c.Pos ≠ 0
      | .delete p => ∃ c ∈ flattenChars d, comparePositions p c.Pos = 0) :
    DocInv (applyOp d op) ∧
      flattenChars (applyOp d op) = applyOpL (flattenChars d) op := by
  obtain ⟨lines⟩ := d
  have hne : lines ≠ [] := by
    intro h
    subst h
    exact hinv.1
  have hgac : getAllCharacters ⟨lines⟩ = flattenLines lines :=
    getAllCharacters_eq_flatten ⟨lines⟩ hinv.2
  cases op with
  | insert p v k =>
    cases hfind : (flattenLines lines).findIdx?
        (fun ch => decide (comparePositions p ch.Pos < 0)) with
    | some j =>
      obtain ⟨d1, hok1, hflat⟩ := InsertCharacter_found lines v p k j hne hgac hfind
      obtain ⟨d2, hok2, hcanon2⟩ :=
        InsertCharacter_found_canon lines v p k j hne hgac hinv.1 hfind
      have hd12 : d1 = d2 := Except.ok.inj (hok1.symm.trans hok2)
      have happly : applyOp ⟨lines⟩ (.insert p v k) = d1 := by
        unfold applyOp
        dsimp only
        rw [hok1]
      rw [happly]
      refine ⟨⟨?_, ?_⟩, ?_⟩
      · rw [hd12]; exact hcanon2
      · rw [hflat, List.append_assoc, List.singleton_append,
          ← sInsertChar_splice_found (flattenLines lines) ⟨p, k, v⟩ j hfind]
        exact sInsertChar_pairwise ⟨p, k, v⟩ (flattenLines lines) hinv.2 hvalid
      · show flattenChars d1 = sInsertChar ⟨p, k, v⟩ (flattenLines lines)
        rw [hflat, sInsertChar_splice_found (flattenLines lines) ⟨p, k, v⟩ j hfind,
          List.append_assoc, List.singleton_append]
    | none =>
      obtain ⟨d1, hok1, hflat⟩ := InsertCharacter_end lines v p k hne hgac hfind
      obtain ⟨d2, hok2, hcanon2⟩ :=
        InsertCharacter_end_canon lines v p k hne hgac hinv.1 hfind
      have hd12 : d1 = d2 := Except.ok.inj (hok1.symm.trans hok2)
      have happly : applyOp ⟨lines⟩ (.insert p v k) = d1 := by
        unfold applyOp
        dsimp only
        rw [hok1]
      rw [happly]
      refine ⟨⟨?_, ?_⟩, ?_⟩
      · rw [hd12]; exact hcanon2
      · rw [hflat, ← sInsertChar_append_end (flattenLines lines) ⟨p, k, v⟩ hfind]
        exact sInsertChar_pairwise ⟨p, k, v⟩ (flattenLines lines) hinv.2 hvalid
      · show flattenChars d1 = sInsertChar ⟨p, k, v⟩ (flattenLines lines)
        rw [hflat, sInsertChar_append_end (flattenLines lines) ⟨p, k, v⟩ hfind]
  | delete p =>
    cases hf : findCharacter ⟨lines⟩ p with
    | none =>
      exfalso
      obtain ⟨c0, hc0mem, hc0⟩ := hvalid
      rw [flattenChars_eq] at hc0mem
      unfold flattenLines at hc0mem
      rw [List.mem_flatten] at hc0mem
      obtain ⟨cs, hcs, hc0in⟩ := hc0mem
      rw [List.mem_map] at hcs
      obtain ⟨l, hlmem, hlcs⟩ := hcs
      rw [← hlcs] at hc0in
      exact findCharacterLines_none_inv lines p hf l hlmem c0 hc0in hc0
    | some q =>
      obtain ⟨pre, l, post, cpre, cc, cpost, hdecl, hplen, hcharsl, hclen, hcmp⟩ :=
        findCharacterLines_some lines p q.1 q.2 (by rw [← hf]; rfl)
      have hfind2 : findCharacter ⟨lines⟩ p = some (pre.length, cpre.length) := by
        rw [hf, hplen, hclen]
      obtain ⟨d1, hok1, hflat⟩ :=
        DeleteCharacter_flatten ⟨lines⟩ p pre l post cpre cc cpost hfind2 hdecl hcharsl
      obtain ⟨d2, hok2, hcanon2⟩ :=
        DeleteCharacter_canon ⟨lines⟩ p pre l post cpre cc cpost hfind2 hdecl hcharsl hinv.1
      have hd12 : d1 = d2 := Except.ok.inj (hok1.symm.trans hok2)
      have happly : applyOp ⟨lines⟩ (.delete p) = d1 := by
        unfold applyOp
        dsimp only
        rw [hok1]
      rw [happly]
      have hS : flattenChars ⟨lines⟩ =
          (flattenLines pre ++ cpre) ++ cc :: (cpost ++ flattenLines post) := by
        rw [flattenChars_eq, hdecl, flattenLines_append, flattenLines_cons, hcharsl]
        simp [List.append_assoc]
      have hsortS := hinv.2
      rw [hS] at hsortS
      rcases List.pairwise_append.mp hsortS with ⟨hsA, hsB, hAB⟩
      rcases List.pairwise_cons.mp hsB with ⟨hcB, _⟩
      have hppos : p = cc.Pos := (comparePositions_eq_zero_iff p cc.Pos).mp hcmp
      have hfA : ∀ x ∈ flattenLines pre ++ cpre,
          (fun y => !(decide (comparePositions p y.Pos = 0))) x = true := by
        intro x hx
        have hlt := hAB x hx cc (List.mem_cons_self cc _)
        have hswap := comparePositions_swap x.Pos cc.Pos
        rw [hppos]
        simp only [Bool.not_eq_true', decide_eq_false_iff_not]
        omega
      have hfB : ∀ x ∈ cpost ++ flattenLines post,
          (fun y => !(decide (comparePositions p y.Pos = 0))) x = true := by
        intro x hx
        have hlt := hcB x hx
        rw [hppos]
        simp only [Bool.not_eq_true', decide_eq_false_iff_not]
        omega
      have hfilter : (flattenChars ⟨lines⟩).filter
          (fun y => !(decide (comparePositions p y.Pos = 0))) =
          (flattenLines pre ++ cpre) ++ (cpost ++ flattenLines post) := by
        rw [hS, List.filter_append, List.filter_cons]
        rw [show (!(decide (comparePositions p cc.Pos = 0))) = false from by
          rw [decide_eq_true hcmp]; rfl]
        rw [if_neg (by simp), List.filter_eq_self.mpr hfA,
          List.filter_eq_self.mpr hfB]
      refine ⟨⟨?_, ?_⟩, ?_⟩
      · rw [hd12]; exact hcanon2
      · rw [hflat, ← hfilter]
        exact List.Pairwise.sublist (List.filter_sublist _) hinv.2
      · show flattenChars d1 = (flattenChars ⟨lines⟩).filter
          (fun y => !(decide (comparePositions p y.Pos = 0)))
        rw [hflat, hfilter]

end crdt

namespace crdt

/-- A valid operation sequence preserves the invariant, and the document
evolution is simulated by the flat-list semantics. -/
theorem applyOps_sim :
    ∀ (ops : List Op) (d : Document), DocInv d → ValidSeq d ops →
      DocInv (applyOps d ops) ∧
        flattenChars (applyOps d ops) = applyOpsL (flattenChars d) ops ∧
        ValidSeqL (flattenChars d) ops := by
  intro ops
  induction ops with
  | nil => intro d hinv _; exact ⟨hinv, rfl, trivial⟩
  | cons op rest ih =>
    intro d hinv hvalid
    obtain ⟨hv0, hvrest⟩ := hvalid
    obtain ⟨hinv2, hflat2⟩ := applyOp_sim d op hinv hv0
    obtain ⟨hinvf, hflatf, hvLrest⟩ := ih (applyOp d op) hinv2 hvrest
    refine ⟨hinvf, ?_, ?_⟩
    · show flattenChars (applyOps (applyOp d op) rest) =
        applyOpsL (applyOpL (flattenChars d) op) rest
      rw [hflatf, hflat2]
    · exact ⟨hv0, by rw [← hflat2]; exact hvLrest⟩

end crdt

namespace crdt

/-- Membership in the flat list after a valid operation sequence with
pairwise distinct insert positions is decided by the order-independent
predicate `PFinal`. -/
theorem applyOpsL_mem :
    ∀ (ops : List Op) (S : List Character),
      List.Pairwise (fun a b => comparePositions a.Pos b.Pos < 0) S →
      ValidSeqL S ops →
      List.Pairwise (fun a b => a ≠ b) (insertPositionsOf ops) →
      ∀ c : Character, (c ∈ applyOpsL S ops ↔ PFinal S ops c) := by
  intro ops
  induction ops with
  | nil =>
    intro S _ _ _ c
    show c ∈ S ↔ PFinal S [] c
    unfold PFinal
    rw [show insertLookup [] c.Pos = none from rfl]
    rw [show delCount [] c.Pos = 0 from rfl]
    simp
  | cons op rest ih =>
    intro S hsort hvalid hpw c
    obtain ⟨hv0, hvrest⟩ := hvalid
    cases op with
    | insert p v k =>
      rw [insertPositionsOf_cons_insert] at hpw
      rcases List.pairwise_cons.mp hpw with ⟨hpnot, hrest⟩
      have hsort2 : List.Pairwise (fun a b => comparePositions a.Pos b.Pos < 0)
          (sInsertChar ⟨p, k, v⟩ S) :=
        sInsertChar_pairwise ⟨p, k, v⟩ S hsort hv0
      have hmem := ih (sInsertChar ⟨p, k, v⟩ S) hsort2 hvrest hrest c
      show c ∈ applyOpsL (sInsertChar ⟨p, k, v⟩ S) rest ↔ _
      rw [hmem]
      unfold PFinal
      rw [insertLookup_cons_insert, delCount_cons_insert]
      by_cases hcp : c.Pos = p
      · rw [if_pos hcp.symm]
        have hnotin : c.Pos ∉ insertPositionsOf rest := by
          rw [hcp]
          intro hm
          exact hpnot p hm rfl
        rw [insertLookup_eq_none c.Pos rest hnotin]
        have hpnotS : c.Pos ∉ S.map Character.Pos := by
          rw [hcp]
          intro hm
          rw [List.mem_map] at hm
          obtain ⟨x, hx, hxp⟩ := hm
          exact hv0 x hx ((comparePositions_eq_zero_iff p x.Pos).mpr hxp.symm)
        rw [if_neg hpnotS]
        dsimp only
        constructor
        · rintro ⟨hcmem, hdc⟩
          rcases (mem_sInsertChar _ _ _).mp hcmem with hce | hcS
          · exact ⟨hce, hdc⟩
          · exact absurd ((comparePositions_eq_zero_iff p c.Pos).mpr hcp.symm)
              (hv0 c hcS)
        · rintro ⟨hce, hdc⟩
          exact ⟨(mem_sInsertChar _ _ _).mpr (Or.inl hce), hdc⟩
      · rw [if_neg (show ¬ p = c.Pos from fun h => hcp h.symm)]
        have hmemS : (c.Pos ∈ (sInsertChar ⟨p, k, v⟩ S).map Character.Pos) ↔
            (c.Pos ∈ S.map Character.Pos) := by
          rw [((sInsertChar_perm ⟨p, k, v⟩ S).map Character.Pos).mem_iff]
          rw [List.map_cons, List.mem_cons]
          constructor
          · rintro (h | h)
            · exact absurd h hcp
            · exact h
          · exact Or.inr
        have hcmemS : (c ∈ sInsertChar ⟨p, k, v⟩ S) ↔ c ∈ S := by
          rw [mem_sInsertChar]
          constructor
          · rintro (h | h)
            · exfalso; rw [h] at hcp; exact hcp rfl
            · exact h
          · exact Or.inr
        cases hlk : insertLookup rest c.Pos with
        | some c2 =>
          dsimp only
          rw [if_congr hmemS rfl rfl]
        | none =>
          dsimp only
          exact and_congr_left' hcmemS
    | delete p =>
      rw [insertPositionsOf_cons_delete] at hpw
      have hsort2 : List.Pairwise (fun a b => comparePositions a.Pos b.Pos < 0)
          (S.filter (fun y => !(decide (comparePositions p y.Pos = 0)))) :=
        List.Pairwise.sublist (List.filter_sublist S) hsort
      have hmem := ih (S.filter (fun y => !(decide (comparePositions p y.Pos = 0))))
        hsort2 hvrest hpw c
      show c ∈ applyOpsL
        (S.filter (fun y => !(decide (comparePositions p y.Pos = 0)))) rest ↔ _
      rw [hmem]
      unfold PFinal
      rw [insertLookup_cons_delete, delCount_cons_delete]
      obtain ⟨x0, hx0, hcmp0⟩ := hv0
      have hpx0 : p = x0.Pos := (comparePositions_eq_zero_iff _ _).mp hcmp0
      have hpS : p ∈ S.map Character.Pos := by
        rw [List.mem_map]
        exact ⟨x0, hx0, hpx0.symm⟩
      have hmemF : ∀ y : Character,
          y ∈ S.filter (fun y => !(decide (comparePositions p y.Pos = 0))) ↔
            (y ∈ S ∧ y.Pos ≠ p) := by
        intro y
        rw [List.mem_filter]
        constructor
        · rintro ⟨hy, hf⟩
          refine ⟨hy, ?_⟩
          simp only [Bool.not_eq_true', decide_eq_false_iff_not] at hf
          intro hyp
          exact hf ((comparePositions_eq_zero_iff _ _).mpr hyp.symm)
        · rintro ⟨hy, hyp⟩
          refine ⟨hy, ?_⟩
          simp only [Bool.not_eq_true', decide_eq_false_iff_not]
          intro h0
          exact hyp ((comparePositions_eq_zero_iff _ _).mp h0).symm
      have hmapF : ∀ q : List Identifier,
          (q ∈ (S.filter
              (fun y => !(decide (comparePositions p y.Pos = 0)))).map Character.Pos ↔
            (q ∈ S.map Character.Pos ∧ q ≠ p)) := by
        intro q
        rw [List.mem_map]
        constructor
        · rintro ⟨y, hy, hyq⟩
          rcases (hmemF y).mp hy with ⟨hyS, hyp⟩
          exact ⟨List.mem_map.mpr ⟨y, hyS, hyq⟩, fun h => hyp (hyq.trans h)⟩
        · rintro ⟨hqS, hqp⟩
          rw [List.mem_map] at hqS
          obtain ⟨y, hyS, hyq⟩ := hqS
          exact ⟨y, (hmemF y).mpr ⟨hyS, by rw [hyq]; exact hqp⟩, hyq⟩
      by_cases hcp : c.Pos = p
      · rw [if_pos hcp.symm]
        cases hlk : insertLookup rest c.Pos with
        | some c2 =>
          dsimp only
          have hnotF : ¬ (c.Pos ∈ (S.filter
              (fun y => !(decide (comparePositions p y.Pos = 0)))).map Character.Pos) := by
            rw [hmapF]
            rintro ⟨_, hne2⟩
            exact hne2 hcp
          rw [if_neg hnotF,
            if_pos (show c.Pos ∈ S.map Character.Pos from by rw [hcp]; exact hpS)]
          constructor
          · rintro ⟨h1, h2⟩
            exact ⟨h1, by omega⟩
          · rintro ⟨h1, h2⟩
            exact ⟨h1, by omega⟩
        | none =>
          dsimp only
          constructor
          · rintro ⟨hcF, _⟩
            exact absurd hcp ((hmemF c).mp hcF).2
          · rintro ⟨_, hd⟩
            exact absurd hd (by omega)
      · rw [if_neg (show ¬ p = c.Pos from fun h => hcp h.symm), Nat.add_zero]
        have hmemS2 : (c.Pos ∈ (S.filter
            (fun y => !(decide (comparePositions p y.Pos = 0)))).map Character.Pos) ↔
            c.Pos ∈ S.map Character.Pos := by
          rw [hmapF]
          constructor
          · rintro ⟨h, _⟩; exact h
          · intro h; exact ⟨h, hcp⟩
        have hcmemS2 : (c ∈ S.filter
            (fun y => !(decide (comparePositions p y.Pos = 0)))) ↔ c ∈ S := by
          rw [hmemF]
          constructor
          · rintro ⟨h, _⟩; exact h
          · intro h; exact ⟨h, hcp⟩
        cases hlk : insertLookup rest c.Pos with
        | some c2 =>
          dsimp only
          rw [if_congr hmemS2 rfl rfl]
        | none =>
          dsimp only
          exact and_congr_left' hcmemS2

end crdt

namespace crdt

/-- A valid operation sequence preserves strict sortedness of the flat
list. -/
theorem applyOpsL_pairwise :
    ∀ (ops : List Op) (S : List Character),
      List.Pairwise (fun a b => comparePositions a.Pos b.Pos < 0) S →
      ValidSeqL S ops →
      List.Pairwise (fun a b => comparePositions a.Pos b.Pos < 0) (applyOpsL S ops) := by
  intro ops
  induction ops with
  | nil => intro S hs _; exact hs
  | cons op rest ih =>
    intro S hs hv
    obtain ⟨hv0, hvrest⟩ := hv
    cases op with
    | insert p v k =>
      exact ih (sInsertChar ⟨p, k, v⟩ S) (sInsertChar_pairwise ⟨p, k, v⟩ S hs hv0) hvrest
    | delete p =>
      refine ih (S.filter (fun y => !(decide (comparePositions p y.Pos = 0)))) ?_ hvrest
      exact List.Pairwise.sublist (List.filter_sublist S) hs

/-- `PFinal` only depends on the multiset of operations. -/
theorem PFinal_perm (S : List Character) (ops1 ops2 : List Op)
    (hperm : ops1.Perm ops2)
    (hpw : List.Pairwise (fun a b => a ≠ b) (insertPositionsOf ops1))
    (c : Character) : PFinal S ops1 c ↔ PFinal S ops2 c := by
  have hipo : (insertPositionsOf ops1).Perm (insertPositionsOf ops2) :=
    List.Perm.filterMap _ hperm
  have hpw2 := (List.Perm.pairwise_iff (fun hxy => Ne.symm hxy) hipo).mp hpw
  have hdel : ∀ q, delCount ops1 q = delCount ops2 q :=
    fun q => List.Perm.countP_eq _ hperm
  have hlk : ∀ cc, insertLookup ops1 c.Pos = some cc ↔
      insertLookup ops2 c.Pos = some cc := by
    intro cc
    rw [insertLookup_some_iff c.Pos ops1 hpw cc,
      insertLookup_some_iff c.Pos ops2 hpw2 cc]
    constructor
    · rintro ⟨v, k, hm, hc⟩
      exact ⟨v, k, hperm.mem_iff.mp hm, hc⟩
    · rintro ⟨v, k, hm, hc⟩
      exact ⟨v, k, hperm.mem_iff.mpr hm, hc⟩
  unfold PFinal
  cases h1 : insertLookup ops1 c.Pos with
  | some cc =>
    rw [(hlk cc).mp h1]
    dsimp only
    rw [hdel c.Pos]
  | none =>
    cases h2 : insertLookup ops2 c.Pos with
    | some cc =>
      exact absurd ((hlk cc).mpr h2) (by rw [h1]; simp)
    | none =>
      dsimp only
      rw [hdel c.Pos]

/-- Two valid sequences with the same multiset of operations produce the
same flat list. -/
theorem applyOpsL_eq (S : List Character) (ops1 ops2 : List Op)
    (hsort : List.Pairwise (fun a b => comparePositions a.Pos b.Pos < 0) S)
    (hperm : ops1.Perm ops2)
    (hpw : List.Pairwise (fun a b => a ≠ b) (insertPositionsOf ops1))
    (hv1 : ValidSeqL S ops1) (hv2 : ValidSeqL S ops2) :
    applyOpsL S ops1 = applyOpsL S ops2 := by
  have hipo : (insertPositionsOf ops1).Perm (insertPositionsOf ops2) :=
    List.Perm.filterMap _ hperm
  have hpw2 := (List.Perm.pairwise_iff (fun hxy => Ne.symm hxy) hipo).mp hpw
  have hm1 := applyOpsL_mem ops1 S hsort hv1 hpw
  have hm2 := applyOpsL_mem ops2 S hsort hv2 hpw2
  have hs1 := applyOpsL_pairwise ops1 S hsort hv1
  have hs2 := applyOpsL_pairwise ops2 S hsort hv2
  have hnd1 : (applyOpsL S ops1).Nodup := by
    refine List.Pairwise.imp ?_ hs1
    intro a b hab hEq
    have h0 : comparePositions b.Pos b.Pos = 0 :=
      (comparePositions_eq_zero_iff _ _).mpr rfl
    rw [hEq, h0] at hab
    omega
  have hnd2 : (applyOpsL S ops2).Nodup := by
    refine List.Pairwise.imp ?_ hs2
    intro a b hab hEq
    have h0 : comparePositions b.Pos b.Pos = 0 :=
      (comparePositions_eq_zero_iff _ _).mpr rfl
    rw [hEq, h0] at hab
    omega
  have hperm12 : (applyOpsL S ops1).Perm (applyOpsL S ops2) := by
    rw [List.perm_ext_iff_of_nodup hnd1 hnd2]
    intro a
    rw [hm1 a, hm2 a]
    exact PFinal_perm S ops1 ops2 hperm hpw a
  haveI : IsAntisymm Character (fun a b => comparePositions a.Pos b.Pos < 0) := by
    refine ⟨?_⟩
    intro a b h1 h2
    exfalso
    have hswap := comparePositions_swap a.Pos b.Pos
    omega
  exact List.eq_of_perm_of_sorted hperm12 hs1 hs2

end crdt

/-- Claim C2: two documents starting in identical state (a common
document satisfying the documented invariants: canonical line structure
and strictly sorted positions) that are fed the same multiset of
operations — inserts carrying pairwise distinct fresh positions, deletes
targeting positions present when applied — in any two orders via
`InsertCharacter` and `DeleteCharacter` (errors swallowed, as in the
replicator) end with equal `ToText` output. -/
theorem claim_C2 (d : crdt.Document) (ops1 ops2 : List crdt.Op)
    (hinv : crdt.DocInv d)
    (hperm : ops1.Perm ops2)
    (hpw : List.Pairwise (fun a b => a ≠ b) (crdt.insertPositionsOf ops1))
    (hv1 : crdt.ValidSeq d ops1) (hv2 : crdt.ValidSeq d ops2) :
    crdt.ToText (crdt.applyOps d ops1) = crdt.ToText (crdt.applyOps d ops2) := by
  obtain ⟨hinv1, hflat1, hvL1⟩ := crdt.applyOps_sim ops1 d hinv hv1
  obtain ⟨hinv2, hflat2, hvL2⟩ := crdt.applyOps_sim ops2 d hinv hv2
  have heq : crdt.flattenChars (crdt.applyOps d ops1) =
      crdt.flattenChars (crdt.applyOps d ops2) := by
    rw [hflat1, hflat2]
    exact crdt.applyOpsL_eq (crdt.flattenChars d) ops1 ops2 hinv.2 hperm hpw hvL1 hvL2
  have hdoc := crdt.doc_eq_of_inv_of_flatten_eq _ _ hinv1 hinv2 heq
  rw [hdoc]

/-- Witness for claim C2 at concrete inputs: on the document of
`FromText "ab" 1`, an insert of `'x'` between the two characters and a
delete of `'b'` commute. -/
theorem claim_C2_witness :
    crdt.ToText (crdt.applyOps (crdt.FromText "ab".toList 1)
        [.insert [⟨1, 1⟩, ⟨1, 2⟩] 'x' 5, .delete [⟨2, 1⟩]]) =
      crdt.ToText (crdt.applyOps (crdt.FromText "ab".toList 1)
        [.delete [⟨2, 1⟩], .insert [⟨1, 1⟩, ⟨1, 2⟩] 'x' 5]) :=
  claim_C2 (crdt.FromText "ab".toList 1) _ _ (by decide)
    (List.Perm.swap _ _ _) (by decide) (by decide) (by decide)
